import Mathlib

/-!
Shallow embedding of the TDB codec (`src/tdb/consts.rs`, `src/tdb/decode.rs`,
`src/tdb/encode.rs`): a byte-exact binary format for FLARM device databases.
Byte buffers are `List Nat` (each element a byte value), Rust `String` is
Lean `String` (both are sequences of Unicode scalar values), Rust `u32`
arithmetic is `Nat` with explicit reduction modulo 2^32 where the code
truncates, and fallible functions return `Except`.
-/

set_option maxRecDepth 100000

namespace Tdb

/-! ### Layout constants (`src/tdb/consts.rs`) -/

def MAGIC : List Nat := [0x08, 0xd5, 0x19, 0x87]

def HEADER_SIZE : Nat := 12

def INDEX_ENTRY_SIZE : Nat := 4

def PADDING_SIZE : Nat := 8

def RECORD_SIZE : Nat := 96

def FLARM_ID_OFFSET : Nat := 0

def FREQUENCY_OFFSET : Nat := 4

def CALL_SIGN_OFFSET : Nat := 16

def PILOT_NAME_OFFSET : Nat := 32

def AIRFIELD_OFFSET : Nat := 48

def PLANE_TYPE_OFFSET : Nat := 64

def REGISTRATION_OFFSET : Nat := 80

def STRING_FIELD_SIZE : Nat := 16

/-! ### Data model

`Record` and `File` are declared in the crate root; their fields are fixed by
how `decode.rs` constructs `Record` and how `encode.rs` reads `File`
(`version`, `records`), matching the spec's data model section. -/

/-- One device/pilot entry, all fields strings as in the Rust struct. -/
structure Record where
  flarm_id : String
  pilot_name : String
  airfield : String
  plane_type : String
  registration : String
  call_sign : String
  frequency : String
deriving DecidableEq, Repr

/-- In-memory database: format version plus record collection. -/
structure File where
  version : Nat
  records : List Record
deriving DecidableEq, Repr

/-! ### Little-endian 32-bit helpers -/

/-- `u32::to_le_bytes`: four bytes, least significant first.  Reduction of
each byte modulo 256 makes this total on `Nat`; on values below 2^32 it is
exactly the Rust function. -/
def toLe4 (v : Nat) : List Nat :=
  [v % 256, v / 256 % 256, v / 65536 % 256, v / 16777216 % 256]

/-- `u32::from_le_bytes` applied to `data[off..off+4]`. -/
def readLe4 (data : List Nat) (off : Nat) : Nat :=
  data.getD off 0 + 256 * data.getD (off + 1) 0 + 65536 * data.getD (off + 2) 0 +
    16777216 * data.getD (off + 3) 0

/-! ### Hex formatting and parsing -/

/-- Uppercase hexadecimal digit character for a value below 16. -/
def hexDigitChar (n : Nat) : Char :=
  if n < 10 then Char.ofNat (48 + n) else Char.ofNat (55 + n)

/-- Rust `format!("\x7b:06X\x7d", id)` for `id ≤ 0xFFFFFF`: exactly six
uppercase hex digits, zero padded. -/
def toHex6 (id : Nat) : String :=
  String.mk [hexDigitChar (id / 1048576 % 16), hexDigitChar (id / 65536 % 16),
    hexDigitChar (id / 4096 % 16), hexDigitChar (id / 256 % 16),
    hexDigitChar (id / 16 % 16), hexDigitChar (id % 16)]

/-- Value of one hex digit character (either case), as accepted by
`u32::from_str_radix(_, 16)`. -/
def hexVal (c : Char) : Option Nat :=
  if 48 ≤ c.toNat ∧ c.toNat ≤ 57 then some (c.toNat - 48)
  else if 65 ≤ c.toNat ∧ c.toNat ≤ 70 then some (c.toNat - 55)
  else if 97 ≤ c.toNat ∧ c.toNat ≤ 102 then some (c.toNat - 87)
  else none

/-- Fold a digit list (most significant first) in base 16, failing on the
first non-digit. -/
def hexFold (acc : Nat) : List Char → Option Nat
  | [] => some acc
  | c :: cs =>
    match hexVal c with
    | some d => hexFold (acc * 16 + d) cs
    | none => none

/-- `u32::from_str_radix(s, 16)`: optional single sign, then a nonempty run
of hex digits; a `-` sign only admits the value zero (negative overflow
errors out in Rust), and any value at or above 2^32 is an overflow error. -/
def fromStrRadix16 (cs : List Char) : Option Nat :=
  match cs with
  | [] => none
  | c :: rest =>
    let body := if c = '+' ∨ c = '-' then rest else cs
    match body with
    | [] => none
    | _ :: _ =>
      match hexFold 0 body with
      | some v =>
        if v < 4294967296 then (if c = '-' ∧ v ≠ 0 then none else some v) else none
      | none => none

/-! ### Decimal formatting and parsing (frequency field) -/

/-- Little-endian decimal digits of `n`, via explicit fuel (`fuel ≥ n`
suffices); empty for `n = 0`. -/
def decDigitsAux (fuel n : Nat) : List Nat :=
  match fuel with
  | 0 => []
  | fuel + 1 => if n = 0 then [] else n % 10 :: decDigitsAux fuel (n / 10)

/-- Decimal digit character for a value below 10. -/
def decDigitChar (n : Nat) : Char := Char.ofNat (48 + n)

/-- Rust `format!("\x7b\x7d", n)` for a `u32`: decimal digit string. -/
def natToString (n : Nat) : String :=
  if n = 0 then "0" else String.mk (((decDigitsAux n n).reverse).map decDigitChar)

/-- Rust `format!("\x7b:03\x7d", r)` for `r < 1000`: exactly three decimal
digits, zero padded. -/
def pad3 (r : Nat) : String :=
  String.mk [decDigitChar (r / 100 % 10), decDigitChar (r / 10 % 10), decDigitChar (r % 10)]

/-- Decode-side frequency rendering from `decode_record`: 0 becomes the
empty string, a nonzero integer `n` becomes "\x7bn/1000\x7d.\x7bn%1000:03\x7d". -/
def formatFrequency (freq : Nat) : String :=
  if freq = 0 then "" else natToString (freq / 1000) ++ "." ++ pad3 (freq % 1000)

def isDecDigit (c : Char) : Bool := 48 ≤ c.toNat ∧ c.toNat ≤ 57

/-- Numeric value of a run of decimal digit characters, most significant
first. -/
def decVal (cs : List Char) : Nat :=
  cs.foldl (fun acc c => acc * 10 + (c.toNat - 48)) 0

/-- Plain-decimal grammar of `str::parse::<f64>`: optional sign, then
digits with at most one point and at least one digit.  Returns the sign,
the integer part value and the fraction digit characters.  (The float
parser also accepts exponent forms and infinity/NaN spellings; those lie
outside this model, which covers the decimal fragment the codec itself
produces and the spec describes.) -/
def parseDecimal (cs : List Char) : Option (Bool × Nat × List Char) :=
  match cs with
  | [] => none
  | c :: rest =>
    let neg := c = '-'
    let body := if c = '+' ∨ c = '-' then rest else cs
    let intPart := body.takeWhile isDecDigit
    let after := body.dropWhile isDecDigit
    match after with
    | [] => if intPart.isEmpty then none else some (neg, decVal intPart, [])
    | d :: frac =>
      if d = '.' ∧ frac.all isDecDigit ∧ (intPart ≠ [] ∨ frac ≠ []) then
        some (neg, decVal intPart, frac)
      else none

/-- `parse_frequency` from `encode.rs`: empty string is 0; otherwise parse
as a decimal number, multiply by 1000 and round to the nearest integer
(half away from zero, as `f64::round` does), the final `as u32` cast
saturating at the `u32` range.  Modelled with exact decimal arithmetic:
with value `i + f/10^k`, the result is round((i*10^k + f) * 1000 / 10^k).
On every string the codec itself emits (at most three fraction digits,
value below 2^32) this agrees with the source's `f64` route, whose
relative error is far below the half-unit rounding slack. -/
def parseFrequency (s : String) : Except String Nat :=
  if s = "" then .ok 0
  else
    match parseDecimal s.data with
    | some (neg, ip, frac) =>
      if neg then .ok 0
      else
        let den := 10 ^ frac.length
        let num := (ip * den + decVal frac) * 1000
        .ok (min 4294967295 ((2 * num + den) / (2 * den)))
    | none => .error s

/-! ### UTF-8 encoding and decoding -/

/-- Standard UTF-8 encoding of one Unicode scalar value (1–4 bytes). -/
def utf8EncodeChar (c : Char) : List Nat :=
  if c.toNat < 128 then [c.toNat]
  else if c.toNat < 2048 then [192 + c.toNat / 64, 128 + c.toNat % 64]
  else if c.toNat < 65536 then
    [224 + c.toNat / 4096, 128 + c.toNat / 64 % 64, 128 + c.toNat % 64]
  else
    [240 + c.toNat / 262144, 128 + c.toNat / 4096 % 64, 128 + c.toNat / 64 % 64,
      128 + c.toNat % 64]

/-- UTF-8 byte sequence of a character list. -/
def utf8Encode : List Char → List Nat
  | [] => []
  | c :: cs => utf8EncodeChar c ++ utf8Encode cs

/-- A UTF-8 continuation byte. -/
def isCont (b : Nat) : Bool := 128 ≤ b ∧ b < 192

/-- One step of strict UTF-8 decoding: given the first byte and the
remaining bytes, consume one well-formed scalar (per the well-formed byte
sequences of `std::str::from_utf8`: no overlong forms, no surrogates,
nothing above U+10FFFF) and return it with the rest, or fail. -/
def utf8Step (b : Nat) (rest : List Nat) : Option (Char × List Nat) :=
  if b < 128 then some (Char.ofNat b, rest)
  else if b < 194 then none
  else if b < 224 then
    match rest with
    | b1 :: rest1 =>
      if isCont b1 then some (Char.ofNat ((b - 192) * 64 + (b1 - 128)), rest1) else none
    | [] => none
  else if b < 240 then
    match rest with
    | b1 :: b2 :: rest2 =>
      if (if b = 224 then 160 ≤ b1 ∧ b1 < 192
          else if b = 237 then 128 ≤ b1 ∧ b1 < 160
          else isCont b1 = true) ∧ isCont b2 = true then
        some (Char.ofNat ((b - 224) * 4096 + (b1 - 128) * 64 + (b2 - 128)), rest2)
      else none
    | _ => none
  else if b < 245 then
    match rest with
    | b1 :: b2 :: b3 :: rest3 =>
      if (if b = 240 then 144 ≤ b1 ∧ b1 < 192
          else if b = 244 then 128 ≤ b1 ∧ b1 < 144
          else isCont b1 = true) ∧ isCont b2 = true ∧ isCont b3 = true then
        some (Char.ofNat ((b - 240) * 262144 + (b1 - 128) * 4096 + (b2 - 128) * 64 + (b3 - 128)),
          rest3)
      else none
    | _ => none
  else none

/-- Iterate `utf8Step`; the fuel only bounds the number of scalars, and
each scalar consumes at least one byte, so any fuel at or above the byte
count gives the untruncated decode. -/
def utf8DecodeAux : Nat → List Nat → Option (List Char)
  | _, [] => some []
  | 0, _ :: _ => none
  | fuel + 1, b :: rest =>
    match utf8Step b rest with
    | some (c, rest2) => (utf8DecodeAux fuel rest2).map (fun cs => c :: cs)
    | none => none

/-- Strict UTF-8 validation and decoding of `std::str::from_utf8`:
`none` exactly when the Rust function errors. -/
def utf8Decode (bs : List Nat) : Option (List Char) := utf8DecodeAux bs.length bs

/-! ### Decoder (`src/tdb/decode.rs`) -/

/-- Errors of `decode.rs`; `invalidMagic` carries the four observed bytes,
`invalidUtf8` the field name and its byte offset within the record. -/
inductive DecodeError where
  | unexpectedEof : DecodeError
  | invalidMagic : List Nat → DecodeError
  | invalidFlarmId : Nat → DecodeError
  | invalidUtf8 : String → Nat → DecodeError
deriving DecidableEq, Repr

/-- Decoder output: version plus one outcome per record slot. -/
structure DecodedFile where
  version : Nat
  records : List (Except DecodeError Record)
deriving Repr

/-- `decode_string`: the 16-byte text field at `offset`, cut at the first
zero byte (or the field end when none), interpreted as UTF-8. -/
def decode_string (data : List Nat) (offset : Nat) (field : String) :
    Except DecodeError String :=
  match utf8Decode (((data.drop offset).take STRING_FIELD_SIZE).takeWhile
      (fun b => b ≠ 0)) with
  | some cs => .ok (String.mk cs)
  | none => .error (.invalidUtf8 field offset)

/-- `decode_record` on one 96-byte slot: reject a raw id above 0xFFFFFF,
render id and frequency, then decode the five text fields in source order
(the first bad field decides the record's error). -/
def decode_record (data : List Nat) : Except DecodeError Record :=
  if readLe4 data FLARM_ID_OFFSET > 0xFFFFFF then
    .error (.invalidFlarmId (readLe4 data FLARM_ID_OFFSET))
  else
    (decode_string data CALL_SIGN_OFFSET "call_sign").bind fun call_sign =>
    (decode_string data PILOT_NAME_OFFSET "pilot_name").bind fun pilot_name =>
    (decode_string data AIRFIELD_OFFSET "airfield").bind fun airfield =>
    (decode_string data PLANE_TYPE_OFFSET "plane_type").bind fun plane_type =>
    (decode_string data REGISTRATION_OFFSET "registration").map fun registration =>
      { flarm_id := toHex6 (readLe4 data FLARM_ID_OFFSET), pilot_name, airfield, plane_type,
        registration, call_sign,
        frequency := formatFrequency (readLe4 data FREQUENCY_OFFSET) }

/-- `decode_file`: header validation (length, magic, declared count against
available bytes), then one isolated `decode_record` outcome per slot. -/
def decode_file (data : List Nat) : Except DecodeError DecodedFile :=
  if data.length < HEADER_SIZE then .error .unexpectedEof
  else if data.take 4 ≠ MAGIC then .error (.invalidMagic (data.take 4))
  else if data.length < HEADER_SIZE + readLe4 data 8 * INDEX_ENTRY_SIZE + PADDING_SIZE +
      readLe4 data 8 * RECORD_SIZE then .error .unexpectedEof
  else
    .ok ⟨readLe4 data 4,
      (List.range (readLe4 data 8)).map
        (fun i => decode_record ((data.drop (HEADER_SIZE + readLe4 data 8 * INDEX_ENTRY_SIZE +
          PADDING_SIZE + i * RECORD_SIZE)).take RECORD_SIZE))⟩

/-! ### Encoder (`src/tdb/encode.rs`) -/

/-- Errors of `encode.rs` (the I/O variant cannot occur when writing to a
memory buffer, as `encode_file` does). -/
inductive EncodeError where
  | invalidFlarmId : String → EncodeError
  | invalidFrequency : String → EncodeError
deriving DecidableEq, Repr

/-- `parse_flarm_id`: hex-parse the string, reject values above 0xFFFFFF,
either failure naming the offending string. -/
def parse_flarm_id (s : String) : Except EncodeError Nat :=
  match fromStrRadix16 s.data with
  | some id => if id > 0xFFFFFF then .error (.invalidFlarmId s) else .ok id
  | none => .error (.invalidFlarmId s)

/-- `parse_frequency` wrapped into the encoder's error type. -/
def parse_frequency (s : String) : Except EncodeError Nat :=
  match parseFrequency s with
  | .ok v => .ok v
  | .error s => .error (.invalidFrequency s)

/-- `value.floor_char_boundary(max)` on the character list: the longest
character prefix whose UTF-8 encoding fits in `max` bytes (Rust's function
returns the byte index, the largest char boundary at or below `max`). -/
def takeUtf8 (max : Nat) : List Char → List Char
  | [] => []
  | c :: cs =>
    if (utf8EncodeChar c).length ≤ max then
      c :: takeUtf8 (max - (utf8EncodeChar c).length) cs
    else []

/-- `write_string`: the value truncated at a char boundary to at most
15 bytes, zero-padded to the 16-byte field. -/
def write_string (value : List Char) : List Nat :=
  let bytes := utf8Encode value
  let truncated :=
    if bytes.length > STRING_FIELD_SIZE - 1 then utf8Encode (takeUtf8 (STRING_FIELD_SIZE - 1) value)
    else bytes
  truncated ++ List.replicate (STRING_FIELD_SIZE - truncated.length) 0

/-- `Writer::write_record`: the 96-byte record image for a resolved id,
failing on a bad frequency string. -/
def write_record (id : Nat) (r : Record) : Except EncodeError (List Nat) :=
  (parse_frequency r.frequency).map fun freq =>
    toLe4 id ++ toLe4 freq ++ List.replicate 8 0 ++
      write_string r.call_sign.data ++ write_string r.pilot_name.data ++
      write_string r.airfield.data ++ write_string r.plane_type.data ++
      write_string r.registration.data

/-- The fallible `map`/`collect` building `entries`: pair every record with
its parsed id, stopping at the first bad id. -/
def collectEntries : List Record → Except EncodeError (List (Nat × Record))
  | [] => .ok []
  | r :: rs =>
    (parse_flarm_id r.flarm_id).bind fun id =>
      (collectEntries rs).map fun rest => (id, r) :: rest

/-- Stable insertion of an entry behind all strictly smaller keys and in
front of equal ones already present later. -/
def insertByKey (p : Nat × Record) : List (Nat × Record) → List (Nat × Record)
  | [] => [p]
  | q :: rest => if q.1 < p.1 then q :: insertByKey p rest else p :: q :: rest

/-- `entries.sort_by_key(|(id, _)| *id)`: a stable sort ascending by id,
modelled by stable insertion sort (Rust's slice sort is stable). -/
def sortByKey : List (Nat × Record) → List (Nat × Record)
  | [] => []
  | p :: rest => insertByKey p (sortByKey rest)

/-- Index section: one little-endian u32 id per sorted entry. -/
def indexBytes : List (Nat × Record) → List Nat
  | [] => []
  | (id, _) :: rest => toLe4 id ++ indexBytes rest

/-- Records section: concatenated 96-byte images, failing at the first bad
frequency in sorted order. -/
def recordsBytes : List (Nat × Record) → Except EncodeError (List Nat)
  | [] => .ok []
  | (id, r) :: rest =>
    (write_record id r).bind fun b =>
      (recordsBytes rest).map fun bs => b ++ bs

/-- `encode_file` via `Writer::write`: resolve all ids, sort, then emit
magic, version, count, index, padding and records.  The `as u32` cast on
the count is the modulo in `toLe4`. -/
def encode_file (f : File) : Except EncodeError (List Nat) :=
  (collectEntries f.records).bind fun entries =>
    (recordsBytes (sortByKey entries)).map fun recs =>
      MAGIC ++ toLe4 f.version ++ toLe4 (sortByKey entries).length ++
        indexBytes (sortByKey entries) ++ List.replicate PADDING_SIZE 0 ++ recs

/-! ### Derived notions used by the statements -/

/-- The NUL character, whose single-byte encoding is the field terminator. -/
def NUL : Char := Char.ofNat 0

/-- UTF-8 byte length of a character list. -/
def utf8Len (s : List Char) : Nat := (utf8Encode s).length

/-- UTF-8-boundary-safe truncation of a string to at most 15 bytes: the
longest character prefix whose encoding fits. -/
def truncStr (s : String) : String := String.mk (takeUtf8 (STRING_FIELD_SIZE - 1) s.data)

/-- A record with every text field truncated as the encoder truncates it;
identity and frequency are untouched. -/
def truncRecord (r : Record) : Record :=
  { flarm_id := r.flarm_id, pilot_name := truncStr r.pilot_name,
    airfield := truncStr r.airfield, plane_type := truncStr r.plane_type,
    registration := truncStr r.registration, call_sign := truncStr r.call_sign,
    frequency := r.frequency }

/-- No text field of the record contains a NUL character. -/
def noNulRecord (r : Record) : Prop :=
  NUL ∉ r.call_sign.data ∧ NUL ∉ r.pilot_name.data ∧ NUL ∉ r.airfield.data ∧
    NUL ∉ r.plane_type.data ∧ NUL ∉ r.registration.data

/-- Numeric value of a record's FLARM id string (0 when unparsable). -/
def numericFlarmId (r : Record) : Nat := (fromStrRadix16 r.flarm_id.data).getD 0

/-- The stored frequency integer of a record (0 when the string fails to
parse). -/
def numericFrequency (r : Record) : Nat :=
  match parse_frequency r.frequency with
  | .ok v => v
  | .error _ => 0

/-- The record produced by decoding a sorted entry's on-disk image:
canonical hex id, truncated text fields, canonical frequency rendering. -/
def decodedRecord (e : Nat × Record) : Record :=
  ⟨toHex6 e.1, truncStr e.2.pilot_name, truncStr e.2.airfield, truncStr e.2.plane_type,
    truncStr e.2.registration, truncStr e.2.call_sign,
    formatFrequency (numericFrequency e.2)⟩

/-- The 96-byte on-disk image of a sorted entry, written right-associated
for slicing. -/
def recordImage (e : Nat × Record) : List Nat :=
  toLe4 e.1 ++ (toLe4 (numericFrequency e.2) ++ (List.replicate 8 0 ++
    (write_string e.2.call_sign.data ++ (write_string e.2.pilot_name.data ++
    (write_string e.2.airfield.data ++ (write_string e.2.plane_type.data ++
      write_string e.2.registration.data))))))

/-! ### Byte-level lemmas -/

theorem length_toLe4 (v : Nat) : (toLe4 v).length = 4 := rfl

theorem toLe4_mod (v : Nat) : toLe4 (v % 4294967296) = toLe4 v := by
  simp only [toLe4, List.cons.injEq, and_true]
  refine ⟨?_, ?_, ?_, ?_⟩ <;> omega

theorem readLe4_toLe4 (v : Nat) (rest : List Nat) :
    readLe4 (toLe4 v ++ rest) 0 = v % 4294967296 := by
  simp only [toLe4, readLe4, List.cons_append, List.nil_append, List.getD_cons_zero,
    List.getD_cons_succ]
  omega

theorem readLe4_append_right (A B : List Nat) (k : Nat) :
    readLe4 (A ++ B) (A.length + k) = readLe4 B k := by
  unfold readLe4
  rw [List.getD_append_right A B 0 _ (by omega), List.getD_append_right A B 0 _ (by omega),
    List.getD_append_right A B 0 _ (by omega), List.getD_append_right A B 0 _ (by omega)]
  have h1 : A.length + k - A.length = k := by omega
  have h2 : A.length + k + 1 - A.length = k + 1 := by omega
  have h3 : A.length + k + 2 - A.length = k + 2 := by omega
  have h4 : A.length + k + 3 - A.length = k + 3 := by omega
  rw [h1, h2, h3, h4]

/-! ### Character lemmas -/

theorem char_valid (c : Char) : c.toNat < 55296 ∨ (57343 < c.toNat ∧ c.toNat < 1114112) :=
  c.valid

theorem char_ofNat_toNat_lo (n : Nat) (h : n < 55296) : (Char.ofNat n).toNat = n := by
  have hv : Nat.isValidChar n := Or.inl h
  simp [Char.ofNat, hv, Char.toNat, Char.ofNatAux, UInt32.toNat, BitVec.toNat_ofNatLt]

theorem char_ofNat_toNat_hi (n : Nat) (h1 : 57343 < n) (h2 : n < 1114112) :
    (Char.ofNat n).toNat = n := by
  have hv : Nat.isValidChar n := Or.inr ⟨h1, h2⟩
  simp [Char.ofNat, hv, Char.toNat, Char.ofNatAux, UInt32.toNat, BitVec.toNat_ofNatLt]

theorem char_eq_of_toNat_eq (c d : Char) (h : c.toNat = d.toNat) : c = d := by
  have hc := Char.ofNat_toNat c
  have hd := Char.ofNat_toNat d
  rw [h] at hc
  exact hc.symm.trans hd

/-! ### Hex round-trip lemmas -/

theorem hexVal_hexDigitChar : ∀ k < 16, hexVal (hexDigitChar k) = some k := by decide

theorem hexDigitChar_ne_sign : ∀ k < 16, hexDigitChar k ≠ '+' ∧ hexDigitChar k ≠ '-' := by decide

theorem hexFold_toHex6 (id : Nat) (hid : id < 16777216) :
    hexFold 0 (toHex6 id).data = some id := by
  have h5 := hexVal_hexDigitChar (id / 1048576 % 16) (by omega)
  have h4 := hexVal_hexDigitChar (id / 65536 % 16) (by omega)
  have h3 := hexVal_hexDigitChar (id / 4096 % 16) (by omega)
  have h2 := hexVal_hexDigitChar (id / 256 % 16) (by omega)
  have h1 := hexVal_hexDigitChar (id / 16 % 16) (by omega)
  have h0 := hexVal_hexDigitChar (id % 16) (by omega)
  simp only [toHex6, hexFold, String.mk, h5, h4, h3, h2, h1, h0]
  congr 1
  omega

theorem parse_flarm_id_toHex6 (id : Nat) (hid : id ≤ 16777215) :
    parse_flarm_id (toHex6 id) = .ok id := by
  have hs := hexDigitChar_ne_sign (id / 1048576 % 16) (by omega)
  have hf := hexFold_toHex6 id (by omega)
  unfold parse_flarm_id fromStrRadix16
  simp only [toHex6, String.mk] at hf ⊢
  simp only [hs.1, hs.2, or_self, if_false, if_neg, hf]
  simp only [show id < 4294967296 by omega, if_true, if_pos]
  simp only [hs.2, false_and, if_false, if_neg]
  simp [show ¬ id > 16777215 by omega]

/-! ### Decimal round-trip lemmas -/

theorem decDigitsAux_lt (fuel : Nat) : ∀ n, ∀ d ∈ decDigitsAux fuel n, d < 10 := by
  induction fuel with
  | zero => intro n d hd; simp [decDigitsAux] at hd
  | succ fuel ih =>
    intro n d hd
    by_cases h : n = 0
    · simp [decDigitsAux, h] at hd
    · simp only [decDigitsAux, h, if_false, if_neg, List.mem_cons] at hd
      rcases hd with h1 | h2
      · omega
      · exact ih (n / 10) d h2

theorem ofDigits_decDigitsAux (fuel : Nat) :
    ∀ n, n ≤ fuel → Nat.ofDigits 10 (decDigitsAux fuel n) = n := by
  induction fuel with
  | zero =>
    intro n hn
    have : n = 0 := by omega
    simp [decDigitsAux, this, Nat.ofDigits_nil]
  | succ fuel ih =>
    intro n hn
    by_cases h : n = 0
    · simp [decDigitsAux, h, Nat.ofDigits_nil]
    · have hdiv : n / 10 ≤ fuel := by
        have := Nat.div_lt_self (Nat.pos_of_ne_zero h) (by omega : 1 < 10)
        omega
      simp only [decDigitsAux, h, if_false, if_neg, Nat.ofDigits_cons, ih (n / 10) hdiv]
      omega

theorem decVal_append_char (A : List Char) (c : Char) :
    decVal (A ++ [c]) = decVal A * 10 + (c.toNat - 48) := by
  simp [decVal, List.foldl_append]

theorem decVal_reverse_map (ds : List Nat) (h : ∀ d ∈ ds, d < 10) :
    decVal ((ds.reverse).map decDigitChar) = Nat.ofDigits 10 ds := by
  induction ds with
  | nil => simp [decVal, Nat.ofDigits_nil]
  | cons d ds ih =>
    have hd : d < 10 := h d (List.mem_cons_self d ds)
    have htail : ∀ x ∈ ds, x < 10 := fun x hx => h x (List.mem_cons_of_mem d hx)
    have hch : (decDigitChar d).toNat = 48 + d := char_ofNat_toNat_lo (48 + d) (by omega)
    simp only [List.reverse_cons, List.map_append, List.map_cons, List.map_nil,
      decVal_append_char, ih htail, Nat.ofDigits_cons, hch]
    omega

theorem isDecDigit_decDigitChar (d : Nat) (h : d < 10) : isDecDigit (decDigitChar d) = true := by
  have hch : (decDigitChar d).toNat = 48 + d := char_ofNat_toNat_lo (48 + d) (by omega)
  simp [isDecDigit, hch]
  omega

theorem natToString_spec (n : Nat) :
    (∀ c ∈ (natToString n).data, isDecDigit c = true) ∧ decVal (natToString n).data = n ∧
      (natToString n).data ≠ [] := by
  by_cases h : n = 0
  · subst h
    refine ⟨?_, by decide, by decide⟩
    intro c hc
    simp only [natToString, if_pos rfl] at hc
    have : c = '0' := by
      simpa using hc
    subst this
    decide
  · have hlt := decDigitsAux_lt n n
    have hval := ofDigits_decDigitsAux n n (le_refl n)
    constructor
    · intro c hc
      simp only [natToString, h, if_false, if_neg, String.mk, List.mem_map,
        List.mem_reverse] at hc
      obtain ⟨d, hd, rfl⟩ := hc
      exact isDecDigit_decDigitChar d (hlt d hd)
    constructor
    · simp only [natToString, h, if_false, if_neg, String.mk]
      rw [decVal_reverse_map _ hlt, hval]
    · simp only [natToString, h, if_false, if_neg, String.mk]
      intro hcon
      have hnil : decDigitsAux n n = [] := by
        simpa using hcon
      rw [hnil] at hval
      simp [Nat.ofDigits_nil] at hval
      exact h hval.symm

theorem takeWhile_all_append (p : Char → Bool) (A B : List Char) (h : ∀ a ∈ A, p a = true) :
    (A ++ B).takeWhile p = A ++ B.takeWhile p := by
  induction A with
  | nil => simp
  | cons a A ih =>
    have ha : p a = true := h a (List.mem_cons_self a A)
    have htail : ∀ x ∈ A, p x = true := fun x hx => h x (List.mem_cons_of_mem a hx)
    simp [List.takeWhile_cons, ha, ih htail]

theorem dropWhile_all_append (p : Char → Bool) (A B : List Char) (h : ∀ a ∈ A, p a = true) :
    (A ++ B).dropWhile p = B.dropWhile p := by
  induction A with
  | nil => simp
  | cons a A ih =>
    have ha : p a = true := h a (List.mem_cons_self a A)
    have htail : ∀ x ∈ A, p x = true := fun x hx => h x (List.mem_cons_of_mem a hx)
    simp [List.dropWhile_cons, ha, ih htail]

theorem isDecDigit_ne_sign (c : Char) (h : isDecDigit c = true) : ¬(c = '+' ∨ c = '-') := by
  intro hc
  rcases hc with hc | hc <;> subst hc <;> simp [isDecDigit] at h

theorem parseDecimal_append_frac (A F : List Char) (hA : ∀ a ∈ A, isDecDigit a = true)
    (hAne : A ≠ []) (hF : ∀ a ∈ F, isDecDigit a = true) :
    parseDecimal (A ++ '.' :: F) = some (false, decVal A, F) := by
  cases A with
  | nil => exact absurd rfl hAne
  | cons a A1 =>
    have ha : isDecDigit a = true := hA a (List.mem_cons_self a A1)
    have hsign := isDecDigit_ne_sign a ha
    have htake : List.takeWhile isDecDigit ((a :: A1) ++ '.' :: F) =
        (a :: A1) ++ List.takeWhile isDecDigit ('.' :: F) :=
      takeWhile_all_append _ (a :: A1) ('.' :: F) hA
    have hdrop : List.dropWhile isDecDigit ((a :: A1) ++ '.' :: F) =
        List.dropWhile isDecDigit ('.' :: F) :=
      dropWhile_all_append _ (a :: A1) ('.' :: F) hA
    have hdot : isDecDigit '.' = false := by decide
    rw [List.takeWhile_cons, hdot] at htake
    rw [List.dropWhile_cons, hdot] at hdrop
    simp only [Bool.false_eq_true, if_false, if_neg, List.append_nil] at htake hdrop
    simp only [List.cons_append] at htake hdrop
    simp only [parseDecimal, List.cons_append, if_neg hsign, htake, hdrop]
    have hcond : True ∧ F.all isDecDigit = true ∧ (a :: A1 ≠ [] ∨ F ≠ []) :=
      ⟨trivial, List.all_eq_true.mpr hF, Or.inl (by simp)⟩
    rw [if_pos hcond]
    have hneg : decide (a = '-') = false := by
      simp only [decide_eq_false_iff_not]
      intro hcon
      exact hsign (Or.inr hcon)
    simp [hneg]

theorem pad3_spec (r : Nat) (hr : r < 1000) :
    (∀ c ∈ (pad3 r).data, isDecDigit c = true) ∧ decVal (pad3 r).data = r ∧
      (pad3 r).data.length = 3 := by
  have h2 : (decDigitChar (r / 100 % 10)).toNat = 48 + r / 100 % 10 :=
    char_ofNat_toNat_lo _ (by omega)
  have h1 : (decDigitChar (r / 10 % 10)).toNat = 48 + r / 10 % 10 :=
    char_ofNat_toNat_lo _ (by omega)
  have h0 : (decDigitChar (r % 10)).toNat = 48 + r % 10 :=
    char_ofNat_toNat_lo _ (by omega)
  refine ⟨?_, ?_, rfl⟩
  · intro c hc
    simp only [pad3, String.mk, List.mem_cons, List.not_mem_nil, or_false] at hc
    rcases hc with rfl | rfl | rfl
    · exact isDecDigit_decDigitChar _ (by omega)
    · exact isDecDigit_decDigitChar _ (by omega)
    · exact isDecDigit_decDigitChar _ (by omega)
  · simp only [pad3, String.mk, decVal, List.foldl_cons, List.foldl_nil, h2, h1, h0]
    omega

theorem parse_frequency_empty : parse_frequency "" = .ok 0 := rfl

theorem formatFrequency_zero : formatFrequency 0 = "" := rfl

theorem parse_frequency_format (n : Nat) (h0 : n ≠ 0) (hn : n < 4294967296) :
    parse_frequency (formatFrequency n) = .ok n := by
  obtain ⟨hA, hAval, hAne⟩ := natToString_spec (n / 1000)
  obtain ⟨hF, hFval, hFlen⟩ := pad3_spec (n % 1000) (by omega)
  have hdot : (("." : String)).data = ['.'] := rfl
  have hdata : (formatFrequency n).data =
      (natToString (n / 1000)).data ++ '.' :: (pad3 (n % 1000)).data := by
    simp [formatFrequency, h0, String.data_append, hdot]
  have hne : formatFrequency n ≠ "" := by
    intro hcon
    rw [hcon] at hdata
    exact hAne (by simpa using hdata.symm)
  unfold parse_frequency parseFrequency
  rw [if_neg hne]
  have hrepr : (formatFrequency n).data = (natToString (n / 1000)).data ++ '.' ::
      (pad3 (n % 1000)).data := hdata
  rw [hrepr, parseDecimal_append_frac _ _ hA hAne hF]
  simp only [Bool.false_eq_true, if_false, if_neg, hFlen, hAval, hFval]
  have harith : (2 * ((n / 1000 * 10 ^ 3 + n % 1000) * 1000) + 10 ^ 3) / (2 * 10 ^ 3) = n := by
    have hm : n / 1000 * 1000 + n % 1000 = n := by omega
    norm_num
    omega
  rw [harith, Nat.min_eq_right (by omega)]

/-! ### UTF-8 lemmas -/

theorem utf8EncodeChar_length_pos (c : Char) : 0 < (utf8EncodeChar c).length := by
  unfold utf8EncodeChar
  split_ifs <;> simp

theorem mem_utf8EncodeChar_lt (c : Char) : ∀ b ∈ utf8EncodeChar c, b < 256 := by
  have hv := char_valid c
  intro b hb
  unfold utf8EncodeChar at hb
  split_ifs at hb <;> simp only [List.mem_cons, List.not_mem_nil, or_false] at hb <;>
    rcases hb with rfl | rfl | rfl | rfl <;> omega

theorem zero_mem_utf8EncodeChar (c : Char) : 0 ∈ utf8EncodeChar c ↔ c.toNat = 0 := by
  unfold utf8EncodeChar
  split_ifs with h1 h2 h3 <;>
    simp only [List.mem_cons, List.not_mem_nil, or_false] <;> omega

theorem utf8Step_encodeChar (c : Char) (bs : List Nat) :
    ∃ b tail, utf8EncodeChar c = b :: tail ∧ utf8Step b (tail ++ bs) = some (c, bs) := by
  have hv := char_valid c
  have hofn : Char.ofNat c.toNat = c := Char.ofNat_toNat c
  by_cases h1 : c.toNat < 128
  · refine ⟨c.toNat, [], by simp [utf8EncodeChar, h1], ?_⟩
    simp only [List.nil_append, utf8Step, if_pos h1, hofn]
  · by_cases h2 : c.toNat < 2048
    · refine ⟨192 + c.toNat / 64, [128 + c.toNat % 64], by simp [utf8EncodeChar, h1, h2], ?_⟩
      simp only [List.cons_append, List.nil_append, utf8Step]
      rw [if_neg (by omega), if_neg (by omega), if_pos (by omega)]
      have hcont : isCont (128 + c.toNat % 64) = true := by
        simp only [isCont, decide_eq_true_eq]
        omega
      rw [if_pos hcont]
      have harg : (192 + c.toNat / 64 - 192) * 64 + (128 + c.toNat % 64 - 128) = c.toNat := by
        omega
      rw [harg, hofn]
    · by_cases h3 : c.toNat < 65536
      · refine ⟨224 + c.toNat / 4096, [128 + c.toNat / 64 % 64, 128 + c.toNat % 64],
          by simp [utf8EncodeChar, h1, h2, h3], ?_⟩
        simp only [List.cons_append, List.nil_append, utf8Step]
        rw [if_neg (by omega), if_neg (by omega), if_neg (by omega), if_pos (by omega)]
        have hguard : (if 224 + c.toNat / 4096 = 224 then
            160 ≤ 128 + c.toNat / 64 % 64 ∧ 128 + c.toNat / 64 % 64 < 192
          else if 224 + c.toNat / 4096 = 237 then
            128 ≤ 128 + c.toNat / 64 % 64 ∧ 128 + c.toNat / 64 % 64 < 160
          else isCont (128 + c.toNat / 64 % 64) = true) ∧
            isCont (128 + c.toNat % 64) = true := by
          refine ⟨?_, by simp only [isCont, decide_eq_true_eq]; omega⟩
          by_cases he0 : 224 + c.toNat / 4096 = 224
          · rw [if_pos he0]
            omega
          · rw [if_neg he0]
            by_cases hed : 224 + c.toNat / 4096 = 237
            · rw [if_pos hed]
              omega
            · rw [if_neg hed]
              simp only [isCont, decide_eq_true_eq]
              omega
        rw [if_pos hguard]
        have harg : (224 + c.toNat / 4096 - 224) * 4096 + (128 + c.toNat / 64 % 64 - 128) * 64 +
            (128 + c.toNat % 64 - 128) = c.toNat := by
          omega
        rw [harg, hofn]
      · have h4 : c.toNat < 1114112 := by omega
        refine ⟨240 + c.toNat / 262144,
          [128 + c.toNat / 4096 % 64, 128 + c.toNat / 64 % 64, 128 + c.toNat % 64],
          by simp [utf8EncodeChar, h1, h2, h3], ?_⟩
        simp only [List.cons_append, List.nil_append, utf8Step]
        rw [if_neg (by omega), if_neg (by omega), if_neg (by omega), if_neg (by omega),
          if_pos (by omega)]
        have hguard : (if 240 + c.toNat / 262144 = 240 then
            144 ≤ 128 + c.toNat / 4096 % 64 ∧ 128 + c.toNat / 4096 % 64 < 192
          else if 240 + c.toNat / 262144 = 244 then
            128 ≤ 128 + c.toNat / 4096 % 64 ∧ 128 + c.toNat / 4096 % 64 < 144
          else isCont (128 + c.toNat / 4096 % 64) = true) ∧
            isCont (128 + c.toNat / 64 % 64) = true ∧ isCont (128 + c.toNat % 64) = true := by
          refine ⟨?_, by simp only [isCont, decide_eq_true_eq]; omega,
            by simp only [isCont, decide_eq_true_eq]; omega⟩
          by_cases he0 : 240 + c.toNat / 262144 = 240
          · rw [if_pos he0]
            omega
          · rw [if_neg he0]
            by_cases hed : 240 + c.toNat / 262144 = 244
            · rw [if_pos hed]
              omega
            · rw [if_neg hed]
              simp only [isCont, decide_eq_true_eq]
              omega
        rw [if_pos hguard]
        have harg : (240 + c.toNat / 262144 - 240) * 262144 +
            (128 + c.toNat / 4096 % 64 - 128) * 4096 + (128 + c.toNat / 64 % 64 - 128) * 64 +
            (128 + c.toNat % 64 - 128) = c.toNat := by
          omega
        rw [harg, hofn]

theorem utf8DecodeAux_nil (fuel : Nat) : utf8DecodeAux fuel [] = some [] := by
  cases fuel <;> rfl

theorem utf8Step_length (b : Nat) (rest : List Nat) (c : Char) (rest2 : List Nat)
    (h : utf8Step b rest = some (c, rest2)) : rest2.length ≤ rest.length := by
  rcases rest with _ | ⟨b1, _ | ⟨b2, _ | ⟨b3, r⟩⟩⟩ <;>
    simp only [utf8Step] at h <;>
    split_ifs at h <;>
    simp_all <;>
    omega

theorem utf8DecodeAux_fuel (fuel1 : Nat) :
    ∀ fuel2 bs, bs.length ≤ fuel1 → bs.length ≤ fuel2 →
      utf8DecodeAux fuel1 bs = utf8DecodeAux fuel2 bs := by
  induction fuel1 with
  | zero =>
    intro fuel2 bs h1 h2
    have hbs : bs = [] := by
      cases bs with
      | nil => rfl
      | cons b rest => simp at h1
    subst hbs
    rw [utf8DecodeAux_nil, utf8DecodeAux_nil]
  | succ f1 ih =>
    intro fuel2 bs h1 h2
    cases bs with
    | nil => rw [utf8DecodeAux_nil, utf8DecodeAux_nil]
    | cons b rest =>
      cases fuel2 with
      | zero => simp at h2
      | succ f2 =>
        simp only [utf8DecodeAux]
        cases hstep : utf8Step b rest with
        | none => rfl
        | some pr =>
          obtain ⟨c, rest2⟩ := pr
          have hlen := utf8Step_length b rest c rest2 hstep
          simp only [List.length_cons] at h1 h2
          show Option.map (fun cs => c :: cs) (utf8DecodeAux f1 rest2) =
            Option.map (fun cs => c :: cs) (utf8DecodeAux f2 rest2)
          rw [ih f2 rest2 (by omega) (by omega)]

theorem utf8Decode_encodeChar (c : Char) (bs : List Nat) :
    utf8Decode (utf8EncodeChar c ++ bs) = (utf8Decode bs).map (fun cs => c :: cs) := by
  obtain ⟨b, tail, henc, hstep⟩ := utf8Step_encodeChar c bs
  unfold utf8Decode
  rw [henc]
  simp only [List.cons_append, List.length_cons, utf8DecodeAux, List.append_eq, hstep]
  rw [utf8DecodeAux_fuel (tail ++ bs).length bs.length bs
    (by simp [List.length_append]) (le_refl _)]

theorem utf8Encode_append (a b : List Char) :
    utf8Encode (a ++ b) = utf8Encode a ++ utf8Encode b := by
  induction a with
  | nil => rfl
  | cons c cs ih => simp [utf8Encode, ih, List.append_assoc]

theorem utf8Decode_encode_append (s : List Char) (bs : List Nat) :
    utf8Decode (utf8Encode s ++ bs) = (utf8Decode bs).map (fun cs => s ++ cs) := by
  induction s with
  | nil => simp [utf8Encode]
  | cons c cs ih =>
    have hassoc : utf8Encode (c :: cs) ++ bs = utf8EncodeChar c ++ (utf8Encode cs ++ bs) := by
      show (utf8EncodeChar c ++ utf8Encode cs) ++ bs = _
      rw [List.append_assoc]
    rw [hassoc, utf8Decode_encodeChar, ih]
    cases utf8Decode bs <;> rfl

theorem utf8Decode_encode (s : List Char) : utf8Decode (utf8Encode s) = some s := by
  have h := utf8Decode_encode_append s []
  simp only [List.append_nil] at h
  rw [h]
  show Option.map (fun cs => s ++ cs) (some []) = some s
  simp

/-! ### Truncation and field lemmas -/

theorem takeWhile_append_all {α : Type} (p : α → Bool) (A B : List α)
    (h : ∀ a ∈ A, p a = true) : (A ++ B).takeWhile p = A ++ B.takeWhile p := by
  induction A with
  | nil => simp
  | cons a A ih =>
    have ha : p a = true := h a (List.mem_cons_self a A)
    have htail : ∀ x ∈ A, p x = true := fun x hx => h x (List.mem_cons_of_mem a hx)
    simp [List.takeWhile_cons, ha, ih htail]

theorem utf8Len_cons (c : Char) (s : List Char) :
    utf8Len (c :: s) = (utf8EncodeChar c).length + utf8Len s := by
  simp [utf8Len, utf8Encode]

theorem takeUtf8_le (s : List Char) : ∀ m, utf8Len (takeUtf8 m s) ≤ m := by
  induction s with
  | nil => intro m; simp [takeUtf8, utf8Len, utf8Encode]
  | cons c cs ih =>
    intro m
    by_cases h : (utf8EncodeChar c).length ≤ m
    · simp only [takeUtf8, if_pos h, utf8Len_cons]
      have := ih (m - (utf8EncodeChar c).length)
      omega
    · simp [takeUtf8, if_neg h, utf8Len, utf8Encode]

theorem takeUtf8_eq_self (s : List Char) : ∀ m, utf8Len s ≤ m → takeUtf8 m s = s := by
  induction s with
  | nil => intro m _; rfl
  | cons c cs ih =>
    intro m hm
    rw [utf8Len_cons] at hm
    have hc : (utf8EncodeChar c).length ≤ m := by omega
    simp only [takeUtf8, if_pos hc]
    rw [ih (m - (utf8EncodeChar c).length) (by omega)]

theorem takeUtf8_prefix (s : List Char) : ∀ m, ∃ t, s = takeUtf8 m s ++ t := by
  induction s with
  | nil => intro m; exact ⟨[], rfl⟩
  | cons c cs ih =>
    intro m
    by_cases h : (utf8EncodeChar c).length ≤ m
    · obtain ⟨t, ht⟩ := ih (m - (utf8EncodeChar c).length)
      exact ⟨t, by simp only [takeUtf8, if_pos h, List.cons_append]; rw [← ht]⟩
    · exact ⟨c :: cs, by simp [takeUtf8, if_neg h]⟩

theorem takeUtf8_max (s : List Char) : ∀ m, takeUtf8 m s = s ∨
    ∃ c t, s = takeUtf8 m s ++ c :: t ∧
      m < utf8Len (takeUtf8 m s) + (utf8EncodeChar c).length := by
  induction s with
  | nil => intro m; exact Or.inl rfl
  | cons c cs ih =>
    intro m
    by_cases h : (utf8EncodeChar c).length ≤ m
    · rcases ih (m - (utf8EncodeChar c).length) with heq | ⟨d, t, ht, hlen⟩
      · exact Or.inl (by simp only [takeUtf8, if_pos h, heq])
      · refine Or.inr ⟨d, t, ?_, ?_⟩
        · simp only [takeUtf8, if_pos h, List.cons_append]
          rw [← ht]
        · simp only [takeUtf8, if_pos h, utf8Len_cons]
          omega
    · refine Or.inr ⟨c, cs, by simp [takeUtf8, if_neg h], ?_⟩
      simp only [takeUtf8, if_neg h]
      simp only [utf8Len, utf8Encode, List.length_nil]
      omega

theorem mem_takeUtf8 (s : List Char) (m : Nat) (c : Char) (h : c ∈ takeUtf8 m s) : c ∈ s := by
  obtain ⟨t, ht⟩ := takeUtf8_prefix s m
  rw [ht]
  exact List.mem_append_left t h

theorem write_string_eq (v : List Char) :
    write_string v = utf8Encode (takeUtf8 15 v) ++
      List.replicate (16 - (utf8Encode (takeUtf8 15 v)).length) 0 := by
  unfold write_string STRING_FIELD_SIZE
  norm_num
  by_cases h : 15 < (utf8Encode v).length
  · rw [if_pos h]
  · rw [if_neg h]
    have hself : takeUtf8 15 v = v := takeUtf8_eq_self v 15 (by simp only [utf8Len]; omega)
    rw [hself]

theorem write_string_trunc_le (v : List Char) : (utf8Encode (takeUtf8 15 v)).length ≤ 15 := by
  have := takeUtf8_le v 15
  simpa [utf8Len] using this

theorem write_string_length (v : List Char) : (write_string v).length = 16 := by
  rw [write_string_eq]
  have := write_string_trunc_le v
  simp [List.length_append, List.length_replicate]
  omega

theorem nul_toNat : NUL.toNat = 0 := rfl

theorem bytes_ne_zero (s : List Char) (h : NUL ∉ s) : ∀ b ∈ utf8Encode s, b ≠ 0 := by
  induction s with
  | nil => intro b hb; simp [utf8Encode] at hb
  | cons c cs ih =>
    intro b hb
    rcases List.mem_append.mp hb with hb1 | hb2
    · intro h0
      subst h0
      have hc0 : c.toNat = 0 := (zero_mem_utf8EncodeChar c).mp hb1
      have : c = NUL := char_eq_of_toNat_eq c NUL (by rw [hc0, nul_toNat])
      exact h (this ▸ List.mem_cons_self c cs)
    · exact ih (fun hmem => h (List.mem_cons_of_mem c hmem)) b hb2

theorem decode_string_extract (A B W : List Nat) (off : Nat) (name : String)
    (hA : A.length = off) (hW : W.length = STRING_FIELD_SIZE) :
    decode_string (A ++ (W ++ B)) off name =
      match utf8Decode (W.takeWhile (fun b => b ≠ 0)) with
      | some cs => .ok (String.mk cs)
      | none => .error (.invalidUtf8 name off) := by
  have htW : W.take STRING_FIELD_SIZE = W := by
    rw [← hW]
    exact List.take_length W
  unfold decode_string
  rw [List.drop_left' hA, List.take_left' hW]

theorem takeWhile_write_string (v : List Char) (hnul : NUL ∉ takeUtf8 15 v) :
    (write_string v).takeWhile (fun b => decide (b ≠ 0)) = utf8Encode (takeUtf8 15 v) := by
  rw [write_string_eq]
  have hnz : ∀ b ∈ utf8Encode (takeUtf8 15 v), (fun b => decide (b ≠ 0)) b = true := by
    intro b hb
    have := bytes_ne_zero (takeUtf8 15 v) hnul b hb
    simp [this]
  rw [takeWhile_append_all _ _ _ hnz]
  have hpad : List.takeWhile (fun b => decide (b ≠ 0))
      (List.replicate (16 - (utf8Encode (takeUtf8 15 v)).length) 0) = [] := by
    rw [List.takeWhile_replicate]
    simp
  rw [hpad, List.append_nil]

theorem decode_string_write (A B : List Nat) (off : Nat) (v : List Char) (name : String)
    (hA : A.length = off) (hnul : NUL ∉ takeUtf8 15 v) :
    decode_string (A ++ (write_string v ++ B)) off name =
      .ok (String.mk (takeUtf8 15 v)) := by
  rw [decode_string_extract A B (write_string v) off name hA (write_string_length v),
    takeWhile_write_string v hnul, utf8Decode_encode]

/-! ### Record image round-trip -/

theorem drop_offset (A B : List Nat) (n k : Nat) (h : A.length = n) :
    (A ++ B).drop (n + k) = B.drop k := by
  rw [← List.drop_drop, List.drop_left' h]

theorem decode_record_image (id freq : Nat) (hid : id ≤ 16777215) (hfr : freq < 4294967296)
    (c1 c2 c3 c4 c5 : List Char)
    (h1 : NUL ∉ takeUtf8 15 c1) (h2 : NUL ∉ takeUtf8 15 c2) (h3 : NUL ∉ takeUtf8 15 c3)
    (h4 : NUL ∉ takeUtf8 15 c4) (h5 : NUL ∉ takeUtf8 15 c5) :
    decode_record (toLe4 id ++ (toLe4 freq ++ (List.replicate 8 0 ++ (write_string c1 ++
      (write_string c2 ++ (write_string c3 ++ (write_string c4 ++ write_string c5))))))) =
      .ok { flarm_id := toHex6 id, pilot_name := String.mk (takeUtf8 15 c2),
            airfield := String.mk (takeUtf8 15 c3), plane_type := String.mk (takeUtf8 15 c4),
            registration := String.mk (takeUtf8 15 c5), call_sign := String.mk (takeUtf8 15 c1),
            frequency := formatFrequency freq } := by
  have hw1 := write_string_length c1
  have hw2 := write_string_length c2
  have hw3 := write_string_length c3
  have hw4 := write_string_length c4
  have hw5 := write_string_length c5
  set data := toLe4 id ++ (toLe4 freq ++ (List.replicate 8 0 ++ (write_string c1 ++
    (write_string c2 ++ (write_string c3 ++ (write_string c4 ++ write_string c5)))))) with hdata
  have hrid : readLe4 data 0 = id := by
    rw [hdata, readLe4_toLe4]
    omega
  have hrfr : readLe4 data 4 = freq := by
    have h := readLe4_append_right (toLe4 id) (toLe4 freq ++ (List.replicate 8 0 ++
      (write_string c1 ++ (write_string c2 ++ (write_string c3 ++
        (write_string c4 ++ write_string c5)))))) 0
    simp only [length_toLe4] at h
    rw [hdata]
    rw [show (4 : Nat) = 4 + 0 from rfl, h, readLe4_toLe4]
    omega
  have e1 : decode_string data 16 "call_sign" = .ok (String.mk (takeUtf8 15 c1)) := by
    have hshape : data = (toLe4 id ++ toLe4 freq ++ List.replicate 8 0) ++ (write_string c1 ++
        (write_string c2 ++ (write_string c3 ++ (write_string c4 ++ write_string c5)))) := by
      rw [hdata]
      simp [List.append_assoc]
    rw [hshape]
    exact decode_string_write _ _ 16 c1 _ (by simp [length_toLe4]) h1
  have e2 : decode_string data 32 "pilot_name" = .ok (String.mk (takeUtf8 15 c2)) := by
    have hshape : data = (toLe4 id ++ toLe4 freq ++ List.replicate 8 0 ++ write_string c1) ++
        (write_string c2 ++ (write_string c3 ++ (write_string c4 ++ write_string c5))) := by
      rw [hdata]
      simp [List.append_assoc]
    rw [hshape]
    exact decode_string_write _ _ 32 c2 _ (by simp [length_toLe4, hw1]) h2
  have e3 : decode_string data 48 "airfield" = .ok (String.mk (takeUtf8 15 c3)) := by
    have hshape : data = (toLe4 id ++ toLe4 freq ++ List.replicate 8 0 ++ write_string c1 ++
        write_string c2) ++ (write_string c3 ++ (write_string c4 ++ write_string c5)) := by
      rw [hdata]
      simp [List.append_assoc]
    rw [hshape]
    exact decode_string_write _ _ 48 c3 _ (by simp [length_toLe4, hw1, hw2]) h3
  have e4 : decode_string data 64 "plane_type" = .ok (String.mk (takeUtf8 15 c4)) := by
    have hshape : data = (toLe4 id ++ toLe4 freq ++ List.replicate 8 0 ++ write_string c1 ++
        write_string c2 ++ write_string c3) ++ (write_string c4 ++ write_string c5) := by
      rw [hdata]
      simp [List.append_assoc]
    rw [hshape]
    exact decode_string_write _ _ 64 c4 _ (by simp [length_toLe4, hw1, hw2, hw3]) h4
  have e5 : decode_string data 80 "registration" = .ok (String.mk (takeUtf8 15 c5)) := by
    have hshape : data = (toLe4 id ++ toLe4 freq ++ List.replicate 8 0 ++ write_string c1 ++
        write_string c2 ++ write_string c3 ++ write_string c4) ++ (write_string c5 ++ []) := by
      rw [hdata]
      simp [List.append_assoc]
    rw [hshape]
    exact decode_string_write _ _ 80 c5 _ (by simp [length_toLe4, hw1, hw2, hw3, hw4]) h5
  unfold decode_record
  simp only [FLARM_ID_OFFSET, FREQUENCY_OFFSET, CALL_SIGN_OFFSET, PILOT_NAME_OFFSET,
    AIRFIELD_OFFSET, PLANE_TYPE_OFFSET, REGISTRATION_OFFSET, hrid, hrfr, e1, e2, e3, e4, e5]
  rw [if_neg (by omega)]
  rfl

theorem write_record_ok (id : Nat) (r : Record) (freq : Nat)
    (hfreq : parse_frequency r.frequency = .ok freq) :
    write_record id r = .ok (toLe4 id ++ (toLe4 freq ++ (List.replicate 8 0 ++
      (write_string r.call_sign.data ++ (write_string r.pilot_name.data ++
      (write_string r.airfield.data ++ (write_string r.plane_type.data ++
        write_string r.registration.data))))))) := by
  unfold write_record
  rw [hfreq]
  show Except.ok _ = Except.ok _
  simp [List.append_assoc]

theorem write_record_length (id : Nat) (r : Record) (img : List Nat)
    (h : write_record id r = .ok img) : img.length = 96 := by
  unfold write_record at h
  cases hp : parse_frequency r.frequency with
  | error e => rw [hp] at h; exact absurd h (by simp [Except.map])
  | ok freq =>
    rw [hp] at h
    simp only [Except.map] at h
    cases h
    simp [List.length_append, length_toLe4, List.length_replicate, write_string_length]

/-! ### Sort lemmas -/

theorem insertByKey_perm (p : Nat × Record) (l : List (Nat × Record)) :
    (insertByKey p l).Perm (p :: l) := by
  induction l with
  | nil => exact List.Perm.refl _
  | cons q rest ih =>
    unfold insertByKey
    by_cases h : q.1 < p.1
    · rw [if_pos h]
      exact (ih.cons q).trans (List.Perm.swap p q rest)
    · rw [if_neg h]

theorem sortByKey_perm (l : List (Nat × Record)) : (sortByKey l).Perm l := by
  induction l with
  | nil => exact List.Perm.refl _
  | cons p rest ih =>
    exact (insertByKey_perm p (sortByKey rest)).trans (ih.cons p)

theorem insertByKey_pairwise (p : Nat × Record) (l : List (Nat × Record))
    (h : List.Pairwise (fun a b => a.1 ≤ b.1) l) :
    List.Pairwise (fun a b => a.1 ≤ b.1) (insertByKey p l) := by
  induction l with
  | nil => simp [insertByKey]
  | cons q rest ih =>
    rw [List.pairwise_cons] at h
    unfold insertByKey
    by_cases hq : q.1 < p.1
    · rw [if_pos hq]
      rw [List.pairwise_cons]
      refine ⟨?_, ih h.2⟩
      intro x hx
      have hmem := (insertByKey_perm p rest).mem_iff.mp hx
      rcases List.mem_cons.mp hmem with rfl | hxr
      · omega
      · exact h.1 x hxr
    · rw [if_neg hq]
      rw [List.pairwise_cons]
      refine ⟨?_, List.pairwise_cons.mpr h⟩
      intro x hx
      rcases List.mem_cons.mp hx with rfl | hxr
      · omega
      · have := h.1 x hxr
        omega

theorem sortByKey_pairwise (l : List (Nat × Record)) :
    List.Pairwise (fun a b => a.1 ≤ b.1) (sortByKey l) := by
  induction l with
  | nil => simp [sortByKey]
  | cons p rest ih => exact insertByKey_pairwise p (sortByKey rest) ih

theorem insertByKey_of_le (p : Nat × Record) (l : List (Nat × Record))
    (h : ∀ x ∈ l, p.1 ≤ x.1) : insertByKey p l = p :: l := by
  cases l with
  | nil => rfl
  | cons q rest =>
    unfold insertByKey
    rw [if_neg]
    have := h q (List.mem_cons_self q rest)
    omega

theorem sortByKey_sorted_fix (l : List (Nat × Record))
    (h : List.Pairwise (fun a b => a.1 ≤ b.1) l) : sortByKey l = l := by
  induction l with
  | nil => rfl
  | cons p rest ih =>
    rw [List.pairwise_cons] at h
    unfold sortByKey
    rw [ih h.2]
    exact insertByKey_of_le p rest h.1

/-! ### Encoder structure lemmas -/

theorem parse_flarm_id_shape (s : String) :
    (∃ v, parse_flarm_id s = .ok v ∧ v ≤ 16777215) ∨
      parse_flarm_id s = .error (.invalidFlarmId s) := by
  unfold parse_flarm_id
  cases fromStrRadix16 s.data with
  | none => exact Or.inr rfl
  | some id =>
    by_cases h : id > 16777215
    · refine Or.inr ?_
      show (if id > 16777215 then Except.error (EncodeError.invalidFlarmId s)
        else Except.ok id) = _
      rw [if_pos h]
    · refine Or.inl ⟨id, ?_, by omega⟩
      show (if id > 16777215 then Except.error (EncodeError.invalidFlarmId s)
        else Except.ok id) = _
      rw [if_neg h]

theorem collectEntries_ok_of (rs : List Record) (ids : Record → Nat)
    (h : ∀ r ∈ rs, parse_flarm_id r.flarm_id = .ok (ids r)) :
    collectEntries rs = .ok (rs.map fun r => (ids r, r)) := by
  induction rs with
  | nil => rfl
  | cons r rest ih =>
    unfold collectEntries
    rw [h r (List.mem_cons_self r rest), ih (fun x hx => h x (List.mem_cons_of_mem r hx))]
    rfl

theorem collectEntries_error (rs : List Record)
    (h : ∃ r ∈ rs, parse_flarm_id r.flarm_id = .error (.invalidFlarmId r.flarm_id)) :
    ∃ r ∈ rs, parse_flarm_id r.flarm_id = .error (.invalidFlarmId r.flarm_id) ∧
      collectEntries rs = .error (.invalidFlarmId r.flarm_id) := by
  induction rs with
  | nil => simp at h
  | cons r rest ih =>
    rcases parse_flarm_id_shape r.flarm_id with ⟨v, hok, _⟩ | herr
    · obtain ⟨x, hx, hxe⟩ := h
      rcases List.mem_cons.mp hx with rfl | hxr
      · rw [hok] at hxe
        exact absurd hxe (by simp)
      · obtain ⟨y, hy, hye, hce⟩ := ih ⟨x, hxr, hxe⟩
        refine ⟨y, List.mem_cons_of_mem r hy, hye, ?_⟩
        unfold collectEntries
        rw [hok, hce]
        rfl
    · exact ⟨r, List.mem_cons_self r rest, herr, by unfold collectEntries; rw [herr]; rfl⟩

theorem collectEntries_inv (rs : List Record) (entries : List (Nat × Record))
    (h : collectEntries rs = .ok entries) :
    entries.length = rs.length ∧
      List.Forall₂ (fun r e => e.2 = r ∧ parse_flarm_id r.flarm_id = .ok e.1) rs entries := by
  induction rs generalizing entries with
  | nil =>
    cases h
    exact ⟨rfl, List.Forall₂.nil⟩
  | cons r rest ih =>
    unfold collectEntries at h
    cases hp : parse_flarm_id r.flarm_id with
    | error e => rw [hp] at h; exact absurd h (by simp [Except.bind])
    | ok id =>
      rw [hp] at h
      simp only [Except.bind] at h
      cases hc : collectEntries rest with
      | error e => rw [hc] at h; exact absurd h (by simp [Except.map])
      | ok tailEntries =>
        rw [hc] at h
        simp only [Except.map, Except.ok.injEq] at h
        obtain ⟨hlen, hf⟩ := ih tailEntries hc
        subst h
        exact ⟨by simp [hlen], List.Forall₂.cons ⟨rfl, hp⟩ hf⟩

theorem recordsBytes_ok_of (l : List (Nat × Record)) (imgs : (Nat × Record) → List Nat)
    (h : ∀ e ∈ l, write_record e.1 e.2 = .ok (imgs e)) :
    recordsBytes l = .ok ((l.map imgs).flatten) := by
  induction l with
  | nil => rfl
  | cons e rest ih =>
    cases e with
    | mk id r =>
      have he : write_record id r = Except.ok (imgs (id, r)) :=
        h (id, r) (List.mem_cons_self _ rest)
      unfold recordsBytes
      rw [he, ih (fun x hx => h x (List.mem_cons_of_mem _ hx))]
      rfl

theorem recordsBytes_inv (l : List (Nat × Record)) (recs : List Nat)
    (h : recordsBytes l = .ok recs) :
    ∃ imgs : List (List Nat), recs = imgs.flatten ∧
      List.Forall₂ (fun e img => write_record e.1 e.2 = .ok img) l imgs := by
  induction l generalizing recs with
  | nil =>
    cases h
    exact ⟨[], rfl, List.Forall₂.nil⟩
  | cons e rest ih =>
    cases e with
    | mk id r =>
      unfold recordsBytes at h
      cases hw : write_record id r with
      | error er => rw [hw] at h; exact absurd h (by simp [Except.bind])
      | ok img =>
        rw [hw] at h
        simp only [Except.bind] at h
        cases hr : recordsBytes rest with
        | error er => rw [hr] at h; exact absurd h (by simp [Except.map])
        | ok tailRecs =>
          rw [hr] at h
          simp only [Except.map, Except.ok.injEq] at h
          obtain ⟨imgs, hflat, hf⟩ := ih tailRecs hr
          subst h
          exact ⟨img :: imgs, by simp [hflat], List.Forall₂.cons hw hf⟩

theorem encode_file_inv (f : File) (buf : List Nat) (h : encode_file f = .ok buf) :
    ∃ entries recs, collectEntries f.records = .ok entries ∧
      recordsBytes (sortByKey entries) = .ok recs ∧
      buf = MAGIC ++ toLe4 f.version ++ toLe4 (sortByKey entries).length ++
        indexBytes (sortByKey entries) ++ List.replicate PADDING_SIZE 0 ++ recs := by
  unfold encode_file at h
  cases hc : collectEntries f.records with
  | error e => rw [hc] at h; exact absurd h (by simp [Except.bind])
  | ok entries =>
    rw [hc] at h
    simp only [Except.bind] at h
    cases hr : recordsBytes (sortByKey entries) with
    | error e => rw [hr] at h; exact absurd h (by simp [Except.map])
    | ok recs =>
      rw [hr] at h
      simp only [Except.map, Except.ok.injEq] at h
      exact ⟨entries, recs, rfl, hr, h.symm⟩

theorem indexBytes_length (l : List (Nat × Record)) : (indexBytes l).length = 4 * l.length := by
  induction l with
  | nil => rfl
  | cons e rest ih =>
    cases e with
    | mk id r => simp [indexBytes, List.length_append, length_toLe4, ih]; omega

theorem forall2_mem_right {α β : Type} {R : α → β → Prop} {l1 : List α} {l2 : List β}
    (h : List.Forall₂ R l1 l2) : ∀ b ∈ l2, ∃ a ∈ l1, R a b := by
  induction h with
  | nil => intro b hb; simp at hb
  | cons hr _ ih =>
    intro b hb
    rcases List.mem_cons.mp hb with rfl | hb2
    · exact ⟨_, List.mem_cons_self _ _, hr⟩
    · obtain ⟨a, ha, har⟩ := ih b hb2
      exact ⟨a, List.mem_cons_of_mem _ ha, har⟩

theorem forall2_get {α β : Type} {R : α → β → Prop} {l1 : List α} {l2 : List β}
    (h : List.Forall₂ R l1 l2) :
    ∀ i h1 h2, R (l1.get ⟨i, h1⟩) (l2.get ⟨i, h2⟩) := by
  induction h with
  | nil => intro i h1 _; simp at h1
  | cons hr _ ih =>
    intro i h1 h2
    cases i with
    | zero => exact hr
    | succ j => exact ih j (by simpa using h1) (by simpa using h2)

theorem forall2_map_self {α β : Type} {R : α → β → Prop} (l : List α) (g : α → β)
    (h : ∀ a ∈ l, R a (g a)) : List.Forall₂ R l (l.map g) := by
  induction l with
  | nil => exact List.Forall₂.nil
  | cons a rest ih =>
    exact List.Forall₂.cons (h a (List.mem_cons_self a rest))
      (ih fun x hx => h x (List.mem_cons_of_mem a hx))

theorem flatten_length_96 (bs : List (List Nat)) (h : ∀ b ∈ bs, b.length = 96) :
    bs.flatten.length = 96 * bs.length := by
  induction bs with
  | nil => rfl
  | cons b rest ih =>
    simp only [List.flatten_cons, List.length_append, List.length_cons,
      h b (List.mem_cons_self b rest), ih (fun x hx => h x (List.mem_cons_of_mem b hx))]
    ring

theorem flatten_blocks (bs : List (List Nat)) (h : ∀ b ∈ bs, b.length = 96) :
    ∀ i, (hi : i < bs.length) →
      ((bs.flatten.drop (i * 96)).take 96) = bs.get ⟨i, hi⟩ := by
  induction bs with
  | nil => intro i hi; simp at hi
  | cons b rest ih =>
    intro i hi
    cases i with
    | zero =>
      have hb := h b (List.mem_cons_self b rest)
      simp only [Nat.zero_mul, List.drop_zero, List.flatten_cons, List.get]
      rw [List.take_left' hb]
    | succ j =>
      have hb := h b (List.mem_cons_self b rest)
      have hdrop : (b :: rest).flatten.drop ((j + 1) * 96) = rest.flatten.drop (j * 96) := by
        rw [List.flatten_cons, show (j + 1) * 96 = 96 + j * 96 by ring, drop_offset _ _ 96 _ hb]
      rw [hdrop]
      exact ih (fun x hx => h x (List.mem_cons_of_mem b hx)) j (by simpa using hi)

/-! ### Decoding an encoded buffer -/

theorem decode_file_of_parts (v : Nat) (hv : v < 4294967296) (l : List (Nat × Record))
    (hn : l.length < 4294967296) (imgs : List (List Nat))
    (hlen : imgs.length = l.length) (h96 : ∀ b ∈ imgs, b.length = 96) :
    decode_file (MAGIC ++ (toLe4 v ++ (toLe4 l.length ++ (indexBytes l ++
      (List.replicate PADDING_SIZE 0 ++ imgs.flatten))))) =
      .ok ⟨v, imgs.map decode_record⟩ := by
  set N := l.length with hN
  set IDX := indexBytes l with hIDX
  set PAD := List.replicate PADDING_SIZE 0 with hPAD
  set FLAT := imgs.flatten with hFLAT
  set buf := MAGIC ++ (toLe4 v ++ (toLe4 N ++ (IDX ++ (PAD ++ FLAT)))) with hbuf
  have hmlen : MAGIC.length = 4 := rfl
  have hidxlen : IDX.length = 4 * N := indexBytes_length l
  have hpadlen : PAD.length = 8 := by simp [hPAD, PADDING_SIZE]
  have hflatlen : FLAT.length = 96 * N := by
    rw [hFLAT, flatten_length_96 imgs h96, hlen]
  have hbuflen : buf.length = 20 + 4 * N + 96 * N := by
    simp only [hbuf, List.length_append, hmlen, length_toLe4, hidxlen, hpadlen, hflatlen]
    omega
  have hr4 : readLe4 buf 4 = v := by
    have h := readLe4_append_right MAGIC (toLe4 v ++ (toLe4 N ++ (IDX ++ (PAD ++ FLAT)))) 0
    rw [hmlen] at h
    simp only [Nat.add_zero] at h
    rw [hbuf, h, readLe4_toLe4]
    omega
  have hr8 : readLe4 buf 8 = N := by
    have hshape : buf = (MAGIC ++ toLe4 v) ++ (toLe4 N ++ (IDX ++ (PAD ++ FLAT))) := by
      rw [hbuf]
      simp [List.append_assoc]
    have h := readLe4_append_right (MAGIC ++ toLe4 v) (toLe4 N ++ (IDX ++ (PAD ++ FLAT))) 0
    have hlen8 : (MAGIC ++ toLe4 v).length = 8 := by
      simp [List.length_append, hmlen, length_toLe4]
    rw [hlen8] at h
    simp only [Nat.add_zero] at h
    rw [hshape, h, readLe4_toLe4]
    omega
  have htake : buf.take 4 = MAGIC := by
    rw [hbuf]
    exact List.take_left' hmlen
  unfold decode_file
  rw [if_neg (by rw [hbuflen]; unfold HEADER_SIZE; omega)]
  rw [htake, if_neg (by simp)]
  rw [hr8, hr4]
  unfold HEADER_SIZE INDEX_ENTRY_SIZE PADDING_SIZE RECORD_SIZE
  rw [if_neg (by rw [hbuflen]; omega)]
  have hrecords : (List.range N).map (fun i => decode_record
      ((buf.drop (12 + N * 4 + 8 + i * 96)).take 96)) = imgs.map decode_record := by
    apply List.ext_get
    · simp [List.length_map, List.length_range, hlen]
    · intro i h1 h2
      simp only [List.length_map, List.length_range] at h1
      have hi : i < imgs.length := by
        rw [hlen]
        exact h1
      have hpre : buf = (MAGIC ++ toLe4 v ++ toLe4 N ++ IDX ++ PAD) ++ FLAT := by
        rw [hbuf]
        simp [List.append_assoc]
      have hprelen : (MAGIC ++ toLe4 v ++ toLe4 N ++ IDX ++ PAD).length = 12 + N * 4 + 8 := by
        simp only [List.length_append, hmlen, length_toLe4, hidxlen, hpadlen]
        omega
      have hslice : (buf.drop (12 + N * 4 + 8 + i * 96)).take 96 = imgs.get ⟨i, hi⟩ := by
        rw [hpre, drop_offset _ _ _ _ hprelen]
        exact flatten_blocks imgs h96 i hi
      rw [List.get_map, List.get_map, List.get_range, hslice]
  rw [hrecords]

theorem parse_flarm_id_le (s : String) (v : Nat) (h : parse_flarm_id s = .ok v) :
    v ≤ 16777215 := by
  rcases parse_flarm_id_shape s with ⟨w, hok, hle⟩ | herr
  · rw [h] at hok
    simp only [Except.ok.injEq] at hok
    omega
  · rw [h] at herr
    exact absurd herr (by simp)

theorem parse_ok_numeric (r : Record) (v : Nat) (h : parse_flarm_id r.flarm_id = .ok v) :
    numericFlarmId r = v := by
  unfold parse_flarm_id at h
  unfold numericFlarmId
  cases hf : fromStrRadix16 r.flarm_id.data with
  | none => rw [hf] at h; exact absurd h (by simp)
  | some id =>
    rw [hf] at h
    have h2 : (if id > 16777215 then Except.error (EncodeError.invalidFlarmId r.flarm_id)
        else Except.ok id) = Except.ok v := h
    by_cases hgt : id > 16777215
    · rw [if_pos hgt] at h2
      exact absurd h2 (by simp)
    · rw [if_neg hgt] at h2
      simp only [Except.ok.injEq] at h2
      simp [h2]

theorem parse_frequency_lt (s : String) (v : Nat) (h : parse_frequency s = .ok v) :
    v < 4294967296 := by
  unfold parse_frequency parseFrequency at h
  split_ifs at h with h1
  · simp only [Except.ok.injEq] at h
    omega
  · cases hp : parseDecimal s.data with
    | none => rw [hp] at h; exact absurd h (by simp)
    | some pr =>
      obtain ⟨neg, ip, frac⟩ := pr
      rw [hp] at h
      by_cases hneg : neg = true
      · rw [hneg] at h
        simp only [if_true, if_pos, Except.ok.injEq] at h
        omega
      · have : neg = false := by
          cases neg
          · rfl
          · exact absurd rfl hneg
        rw [this] at h
        simp only [Bool.false_eq_true, if_false, if_neg, Except.ok.injEq] at h
        have hmin : min 4294967295 (((2 * ((ip * 10 ^ frac.length + decVal frac) * 1000) +
            10 ^ frac.length)) / (2 * 10 ^ frac.length)) ≤ 4294967295 :=
          Nat.min_le_left _ _
        omega

theorem encode_file_error_of_collect (f : File) (e : EncodeError)
    (h : collectEntries f.records = .error e) : encode_file f = .error e := by
  unfold encode_file
  rw [h]
  rfl

/-! ### Claim theorems -/

/-- C8: for every text field value, the encoder writes the largest prefix of
the string's UTF-8 bytes that is at most 15 bytes long and ends on a UTF-8
code-point boundary (the encoding of a character prefix, maximal in that
adding the next character would exceed 15 bytes), and fills the remainder
of the 16-byte field with zero bytes. -/
theorem encode_text_truncation (v : List Char) :
    (write_string v).length = 16 ∧
    ∃ p t, v = p ++ t ∧
      write_string v = utf8Encode p ++ List.replicate (16 - (utf8Encode p).length) 0 ∧
      (utf8Encode p).length ≤ 15 ∧
      (t = [] ∨ ∃ c t2, t = c :: t2 ∧ 15 < (utf8Encode p).length + (utf8EncodeChar c).length) := by
  refine ⟨write_string_length v, takeUtf8 15 v, ?_⟩
  rcases takeUtf8_max v 15 with heq | ⟨c, t2, ht, hlen⟩
  · refine ⟨[], by rw [heq, List.append_nil], write_string_eq v, write_string_trunc_le v,
      Or.inl rfl⟩
  · refine ⟨c :: t2, ht, write_string_eq v, write_string_trunc_le v,
      Or.inr ⟨c, t2, rfl, ?_⟩⟩
    simpa [utf8Len] using hlen

theorem takeWhile_stops_at_zero (C R : List Nat) (h : 0 ∉ C) :
    (C ++ 0 :: R).takeWhile (fun b => decide (b ≠ 0)) = C := by
  have hall : ∀ a ∈ C, (fun b => decide (b ≠ 0)) a = true := by
    intro a ha
    simp only [decide_eq_true_eq]
    intro h0
    exact h (h0 ▸ ha)
  rw [takeWhile_append_all _ _ _ hall, List.takeWhile_cons]
  simp

/-- C9: a text field decodes from the bytes of its 16-byte window before
the first zero byte (all 16 when no zero is present), interpreted as UTF-8;
UTF-8 failure yields the invalid-text-encoding error naming the field and
its offset, success yields exactly the decoded string; the outcome depends
only on the 16-byte window, and a failing call-sign field makes the whole
record's outcome that error (no partial record). -/
theorem decode_text_field_semantics :
    (∀ data off name cs,
      utf8Decode (((data.drop off).take STRING_FIELD_SIZE).takeWhile (fun b => b ≠ 0)) =
          some cs →
        decode_string data off name = .ok (String.mk cs)) ∧
    (∀ data off name,
      utf8Decode (((data.drop off).take STRING_FIELD_SIZE).takeWhile (fun b => b ≠ 0)) =
          none →
        decode_string data off name = .error (.invalidUtf8 name off)) ∧
    (∀ W : List Nat, (0 ∉ W → W.takeWhile (fun b => b ≠ 0) = W) ∧
      (∀ C R, W = C ++ 0 :: R → 0 ∉ C → W.takeWhile (fun b => b ≠ 0) = C)) ∧
    (∀ A B W off name, A.length = off → W.length = STRING_FIELD_SIZE →
      decode_string (A ++ (W ++ B)) off name =
        match utf8Decode (W.takeWhile (fun b => b ≠ 0)) with
        | some cs => .ok (String.mk cs)
        | none => .error (.invalidUtf8 name off)) ∧
    (∀ data e, readLe4 data FLARM_ID_OFFSET ≤ 16777215 →
      decode_string data CALL_SIGN_OFFSET "call_sign" = .error e →
      decode_record data = .error e) := by
  refine ⟨?_, ?_, ?_, ?_, ?_⟩
  · intro data off name cs h
    unfold decode_string
    rw [h]
  · intro data off name h
    unfold decode_string
    rw [h]
  · intro W
    constructor
    · intro h
      rw [List.takeWhile_eq_self_iff]
      intro x hx
      simp only [decide_eq_true_eq]
      intro h0
      exact h (h0 ▸ hx)
    · intro C R hW hC
      rw [hW]
      exact takeWhile_stops_at_zero C R hC
  · intro A B W off name hA hW
    exact decode_string_extract A B W off name hA hW
  · intro data e hid herr
    unfold decode_record
    rw [if_neg (by omega), herr]
    rfl

/-- C4: decode validation is fail-fast in order: a buffer shorter than the
12-byte header is truncated-input; otherwise a wrong 4-byte prefix is
invalid-magic carrying the observed bytes; otherwise, with N read at
offset 8, a buffer shorter than 12 + 4N + 8 + 96N is truncated-input;
otherwise the decode succeeds (no file-level error) with one per-record
outcome for each of the N slots. -/
theorem decode_validation_order (data : List Nat) :
    (data.length < HEADER_SIZE → decode_file data = .error .unexpectedEof) ∧
    (HEADER_SIZE ≤ data.length → data.take 4 ≠ MAGIC →
      decode_file data = .error (.invalidMagic (data.take 4))) ∧
    (HEADER_SIZE ≤ data.length → data.take 4 = MAGIC →
      data.length < HEADER_SIZE + readLe4 data 8 * INDEX_ENTRY_SIZE + PADDING_SIZE +
        readLe4 data 8 * RECORD_SIZE →
      decode_file data = .error .unexpectedEof) ∧
    (HEADER_SIZE ≤ data.length → data.take 4 = MAGIC →
      HEADER_SIZE + readLe4 data 8 * INDEX_ENTRY_SIZE + PADDING_SIZE +
        readLe4 data 8 * RECORD_SIZE ≤ data.length →
      decode_file data = .ok ⟨readLe4 data 4, (List.range (readLe4 data 8)).map
        (fun i => decode_record ((data.drop (HEADER_SIZE +
          readLe4 data 8 * INDEX_ENTRY_SIZE + PADDING_SIZE + i * RECORD_SIZE)).take
            RECORD_SIZE))⟩) := by
  refine ⟨?_, ?_, ?_, ?_⟩
  · intro h
    unfold decode_file
    rw [if_pos h]
  · intro h1 h2
    unfold decode_file
    rw [if_neg (by omega), if_pos h2]
  · intro h1 h2 h3
    unfold decode_file
    rw [if_neg (by omega), if_neg (by simp [h2]), if_pos h3]
  · intro h1 h2 h3
    unfold decode_file
    rw [if_neg (by omega), if_neg (by simp [h2]), if_neg (by omega)]

/-- C5: on a successful decode the record list has exactly the declared
count, and the outcome at index i is exactly the decode of the i-th 96-byte
slot of the records section, in on-disk order — so a record-level error in
one slot never aborts the file and never affects another slot. -/
theorem decode_per_record_isolation (data : List Nat) (df : DecodedFile)
    (h : decode_file data = .ok df) :
    df.records.length = readLe4 data 8 ∧
    ∀ i, i < readLe4 data 8 →
      df.records.getD i (.error .unexpectedEof) = decode_record
        ((data.drop (HEADER_SIZE + readLe4 data 8 * INDEX_ENTRY_SIZE + PADDING_SIZE +
          i * RECORD_SIZE)).take RECORD_SIZE) := by
  unfold decode_file at h
  split_ifs at h with h1 h2 h3
  simp only [Except.ok.injEq] at h
  subst h
  constructor
  · simp [List.length_map, List.length_range]
  · intro i hi
    have hlen : i < ((List.range (readLe4 data 8)).map
        (fun i => decode_record ((data.drop (HEADER_SIZE +
          readLe4 data 8 * INDEX_ENTRY_SIZE + PADDING_SIZE + i * RECORD_SIZE)).take
            RECORD_SIZE))).length := by
      simpa [List.length_map, List.length_range] using hi
    rw [List.getD_eq_get _ _ hlen, List.get_map, List.get_range]

/-- C10: decode needs only a large-enough buffer, never an exact size:
appending any trailing bytes to a successfully decoded buffer leaves the
decode result identical — surplus bytes are silently ignored. -/
theorem decode_ignores_trailing (b t : List Nat) (df : DecodedFile)
    (h : decode_file b = .ok df) : decode_file (b ++ t) = .ok df := by
  unfold decode_file at h
  split_ifs at h with h1 h2 h3
  simp only [Except.ok.injEq] at h
  have hb12 : HEADER_SIZE ≤ b.length := by omega
  have hmagic : b.take 4 = MAGIC := by
    by_contra hc
    exact h2 hc
  have hr4 : readLe4 (b ++ t) 4 = readLe4 b 4 := by
    unfold readLe4
    rw [List.getD_append _ _ _ _ (by unfold HEADER_SIZE at hb12; omega),
      List.getD_append _ _ _ _ (by unfold HEADER_SIZE at hb12; omega),
      List.getD_append _ _ _ _ (by unfold HEADER_SIZE at hb12; omega),
      List.getD_append _ _ _ _ (by unfold HEADER_SIZE at hb12; omega)]
  have hr8 : readLe4 (b ++ t) 8 = readLe4 b 8 := by
    unfold readLe4
    rw [List.getD_append _ _ _ _ (by unfold HEADER_SIZE at hb12; omega),
      List.getD_append _ _ _ _ (by unfold HEADER_SIZE at hb12; omega),
      List.getD_append _ _ _ _ (by unfold HEADER_SIZE at hb12; omega),
      List.getD_append _ _ _ _ (by unfold HEADER_SIZE at hb12; omega)]
  have htake : (b ++ t).take 4 = b.take 4 := by
    rw [List.take_append_eq_append_take,
      show (4 - b.length) = 0 by unfold HEADER_SIZE at hb12; omega, List.take_zero,
      List.append_nil]
  have hexp : ¬ b.length < HEADER_SIZE + readLe4 b 8 * INDEX_ENTRY_SIZE + PADDING_SIZE +
      readLe4 b 8 * RECORD_SIZE := h3
  have hslice : ∀ off, off + RECORD_SIZE ≤ b.length →
      ((b ++ t).drop off).take RECORD_SIZE = (b.drop off).take RECORD_SIZE := by
    intro off hoff
    rw [List.drop_append_eq_append_drop, show (off - b.length) = 0 by
      unfold RECORD_SIZE at hoff; omega, List.drop_zero, List.take_append_eq_append_take,
      show (RECORD_SIZE - (b.drop off).length) = 0 by
        simp only [List.length_drop]; unfold RECORD_SIZE at hoff ⊢; omega,
      List.take_zero, List.append_nil]
  unfold decode_file
  rw [if_neg (by simp only [List.length_append]; omega), htake, hmagic,
    if_neg (by simp), hr8, hr4,
    if_neg (by simp only [List.length_append]; omega)]
  rw [← h]
  have hmap : (List.range (readLe4 b 8)).map
      (fun i => decode_record (((b ++ t).drop (HEADER_SIZE +
        readLe4 b 8 * INDEX_ENTRY_SIZE + PADDING_SIZE + i * RECORD_SIZE)).take
          RECORD_SIZE)) =
      (List.range (readLe4 b 8)).map
      (fun i => decode_record ((b.drop (HEADER_SIZE +
        readLe4 b 8 * INDEX_ENTRY_SIZE + PADDING_SIZE + i * RECORD_SIZE)).take
          RECORD_SIZE)) := by
    apply List.map_congr_left
    intro i hi
    rw [List.mem_range] at hi
    rw [hslice _ ?_]
    unfold HEADER_SIZE INDEX_ENTRY_SIZE PADDING_SIZE RECORD_SIZE at hexp ⊢
    have : i + 1 ≤ readLe4 b 8 := hi
    nlinarith [hexp]
  rw [hmap]

/-- C6: a stored id of 0xFFFFFF decodes successfully rendered as six
uppercase hex digits and the string form encodes successfully; any stored
raw value above 0xFFFFFF makes that slot's outcome the invalid-FLARM-id
error carrying the raw value; on encode, a parse failure or out-of-range
value (such as "1000000") fails the whole operation with the
invalid-FLARM-id error naming the offending string, and every successfully
parsed id is at most 0xFFFFFF. -/
theorem flarm_id_bounds :
    (decode_record (toLe4 16777215 ++ (toLe4 0 ++ (List.replicate 8 0 ++ (write_string [] ++
      (write_string [] ++ (write_string [] ++ (write_string [] ++ write_string []))))))) =
        .ok ⟨"FFFFFF", "", "", "", "", "", ""⟩) ∧
    (∀ data, readLe4 data FLARM_ID_OFFSET > 16777215 →
      decode_record data = .error (.invalidFlarmId (readLe4 data FLARM_ID_OFFSET))) ∧
    (parse_flarm_id "FFFFFF" = .ok 16777215) ∧
    (∃ buf, encode_file ⟨0, [⟨"FFFFFF", "", "", "", "", "", ""⟩]⟩ = .ok buf) ∧
    (parse_flarm_id "1000000" = .error (.invalidFlarmId "1000000")) ∧
    (encode_file ⟨0, [⟨"1000000", "", "", "", "", "", ""⟩]⟩ =
      .error (.invalidFlarmId "1000000")) ∧
    (∀ f : File, (∃ r ∈ f.records,
        parse_flarm_id r.flarm_id = .error (.invalidFlarmId r.flarm_id)) →
      ∃ r ∈ f.records, parse_flarm_id r.flarm_id = .error (.invalidFlarmId r.flarm_id) ∧
        encode_file f = .error (.invalidFlarmId r.flarm_id)) ∧
    (∀ s v, parse_flarm_id s = .ok v → v ≤ 16777215) := by
  refine ⟨by rfl, ?_, by rfl, ⟨_, by rfl⟩, by rfl, by rfl, ?_, parse_flarm_id_le⟩
  · intro data h
    unfold decode_record
    rw [if_pos h]
  · intro f hbad
    obtain ⟨r, hr, herr, hcol⟩ := collectEntries_error f.records hbad
    exact ⟨r, hr, herr, encode_file_error_of_collect f _ hcol⟩

/-- C7: on decode a stored frequency of 0 renders as the empty string and a
nonzero n as its whole part, a point, and the thousandths zero-padded to
three digits (with the digit strings carrying the correct numeric values);
on encode the empty string parses to 0, "123.500" to 123500, every
rendered frequency parses back to its integer, and a string outside the
decimal grammar fails with the invalid-frequency error naming it. -/
theorem frequency_mapping :
    (formatFrequency 0 = "") ∧
    (∀ n, n ≠ 0 → n < 4294967296 →
      formatFrequency n = natToString (n / 1000) ++ "." ++ pad3 (n % 1000) ∧
        decVal (natToString (n / 1000)).data = n / 1000 ∧
        decVal (pad3 (n % 1000)).data = n % 1000) ∧
    (parse_frequency "" = .ok 0) ∧
    (parse_frequency "123.500" = .ok 123500) ∧
    (formatFrequency 123500 = "123.500") ∧
    (∀ n, n ≠ 0 → n < 4294967296 → parse_frequency (formatFrequency n) = .ok n) ∧
    (∀ s, s ≠ "" → parseDecimal s.data = none →
      parse_frequency s = .error (.invalidFrequency s)) ∧
    (∀ data rec, readLe4 data FLARM_ID_OFFSET ≤ 16777215 →
      decode_record data = .ok rec →
      rec.frequency = formatFrequency (readLe4 data FREQUENCY_OFFSET)) := by
  refine ⟨rfl, ?_, rfl, by rfl, by rfl, ?_, ?_, ?_⟩
  · intro n hn hlt
    refine ⟨by simp [formatFrequency, hn], (natToString_spec (n / 1000)).2.1,
      (pad3_spec (n % 1000) (by omega)).2.1⟩
  · intro n hn hlt
    exact parse_frequency_format n hn hlt
  · intro s hs hp
    unfold parse_frequency parseFrequency
    rw [if_neg hs, hp]
  · intro data rec hid h
    unfold decode_record at h
    rw [if_neg (by omega)] at h
    cases h1 : decode_string data CALL_SIGN_OFFSET "call_sign" with
    | error e => rw [h1] at h; exact absurd h (by simp [Except.bind])
    | ok s1 =>
      rw [h1] at h
      simp only [Except.bind] at h
      cases h2 : decode_string data PILOT_NAME_OFFSET "pilot_name" with
      | error e => rw [h2] at h; exact absurd h (by simp [Except.bind])
      | ok s2 =>
        rw [h2] at h
        simp only [Except.bind] at h
        cases h3 : decode_string data AIRFIELD_OFFSET "airfield" with
        | error e => rw [h3] at h; exact absurd h (by simp [Except.bind])
        | ok s3 =>
          rw [h3] at h
          simp only [Except.bind] at h
          cases h4 : decode_string data PLANE_TYPE_OFFSET "plane_type" with
          | error e => rw [h4] at h; exact absurd h (by simp [Except.bind])
          | ok s4 =>
            rw [h4] at h
            simp only [Except.bind] at h
            cases h5 : decode_string data REGISTRATION_OFFSET "registration" with
            | error e => rw [h5] at h; exact absurd h (by simp [Except.map])
            | ok s5 =>
              rw [h5] at h
              simp only [Except.map, Except.ok.injEq] at h
              rw [← h]

/-- C3: a successful encode of N records yields exactly
12 + 4N + 8 + 96N bytes: the magic, the version little-endian, N
little-endian, the index of N little-endian ids in the same ascending
sorted order as the records section, 8 zero padding bytes, and N 96-byte
records; encoding zero records yields exactly 20 bytes with the version
bytes preserved. -/
theorem encode_layout (f : File) (buf : List Nat) (h : encode_file f = .ok buf) :
    ∃ entries sorted imgs,
      collectEntries f.records = .ok entries ∧ sorted = sortByKey entries ∧
      sorted.Perm entries ∧ entries.length = f.records.length ∧
      List.Pairwise (fun a b : Nat × Record => a.1 ≤ b.1) sorted ∧
      List.Forall₂ (fun e img => write_record e.1 e.2 = .ok img) sorted imgs ∧
      (∀ img ∈ imgs, img.length = 96) ∧
      buf = MAGIC ++ toLe4 f.version ++ toLe4 f.records.length ++ indexBytes sorted ++
        List.replicate 8 0 ++ imgs.flatten ∧
      buf.length = 12 + 4 * f.records.length + 8 + 96 * f.records.length ∧
      (f.records = [] → buf.length = 20 ∧
        buf = MAGIC ++ toLe4 f.version ++ toLe4 0 ++ List.replicate 8 0) := by
  obtain ⟨entries, recs, hc, hr, hbuf⟩ := encode_file_inv f buf h
  obtain ⟨imgs, hflat, hf2⟩ := recordsBytes_inv _ _ hr
  obtain ⟨hlen, _⟩ := collectEntries_inv _ _ hc
  have hslen : (sortByKey entries).length = f.records.length := by
    rw [(sortByKey_perm entries).length_eq, hlen]
  have h96 : ∀ img ∈ imgs, img.length = 96 := by
    intro img himg
    obtain ⟨e, _, hw⟩ := forall2_mem_right hf2 img himg
    exact write_record_length e.1 e.2 img hw
  have hilen : imgs.length = f.records.length := by
    rw [← hf2.length_eq, hslen]
  refine ⟨entries, sortByKey entries, imgs, hc, rfl, sortByKey_perm entries, hlen,
    sortByKey_pairwise entries, hf2, h96, ?_, ?_, ?_⟩
  · rw [hbuf, hflat, hslen]
    norm_num [PADDING_SIZE]
  · rw [hbuf]
    simp only [List.length_append, length_toLe4, indexBytes_length, List.length_replicate,
      hflat, flatten_length_96 imgs h96, hslen, hilen]
    have hm : MAGIC.length = 4 := rfl
    have hp : PADDING_SIZE = 8 := rfl
    rw [hm, hp]
  · intro hempty
    have hentries : entries = [] := by
      rw [hempty] at hc
      have : collectEntries [] = Except.ok ([] : List (Nat × Record)) := rfl
      rw [this] at hc
      simp only [Except.ok.injEq] at hc
      exact hc.symm
    have hsorted : sortByKey entries = [] := by rw [hentries]; rfl
    have himgs : imgs = [] := by
      have := hf2.length_eq
      rw [hsorted] at this
      simpa using this.symm
    constructor
    · rw [hbuf, hflat, himgs, hsorted]
      simp [List.length_append, length_toLe4, indexBytes, PADDING_SIZE, MAGIC]
    · rw [hbuf, hflat, himgs, hsorted]
      simp [indexBytes, PADDING_SIZE]

theorem write_record_image (e : Nat × Record) (v : Nat)
    (h : parse_frequency e.2.frequency = .ok v) :
    write_record e.1 e.2 = .ok (recordImage e) := by
  have hnf : numericFrequency e.2 = v := by simp [numericFrequency, h]
  unfold recordImage
  rw [hnf]
  exact write_record_ok e.1 e.2 v h

theorem decode_recordImage (e : Nat × Record) (hkey : e.1 ≤ 16777215)
    (hfr : numericFrequency e.2 < 4294967296)
    (hnul : noNulRecord e.2) :
    decode_record (recordImage e) = .ok (decodedRecord e) := by
  obtain ⟨hn1, hn2, hn3, hn4, hn5⟩ := hnul
  unfold decodedRecord
  exact decode_record_image e.1 (numericFrequency e.2) hkey hfr
    e.2.call_sign.data e.2.pilot_name.data e.2.airfield.data e.2.plane_type.data
    e.2.registration.data
    (fun hm => hn1 (mem_takeUtf8 _ _ _ hm)) (fun hm => hn2 (mem_takeUtf8 _ _ _ hm))
    (fun hm => hn3 (mem_takeUtf8 _ _ _ hm)) (fun hm => hn4 (mem_takeUtf8 _ _ _ hm))
    (fun hm => hn5 (mem_takeUtf8 _ _ _ hm))

/-- C1 (amended): for every File whose records carry canonical FLARM id
strings (exactly six uppercase hex digits, value at most 0xFFFFFF),
canonical frequency strings (empty, or the decoder's rendering of a
nonzero 32-bit integer) and NUL-free text fields, decoding the encoding
succeeds, preserves the version and the record count, and returns exactly
the records reordered ascending by numeric FLARM id with every text field
replaced by its UTF-8-boundary-safe truncation to at most 15 bytes (the
field itself when short enough).  The original claim, which allowed any
hex id string and any decimal frequency string, is refuted by
`round_trip_counterexample`. -/
theorem round_trip (f : File)
    (hv : f.version < 4294967296) (hn : f.records.length < 4294967296)
    (hid : ∀ r ∈ f.records, ∃ id, id ≤ 16777215 ∧ r.flarm_id = toHex6 id)
    (hfr : ∀ r ∈ f.records, r.frequency = "" ∨
      ∃ n, n ≠ 0 ∧ n < 4294967296 ∧ r.frequency = formatFrequency n)
    (hnul : ∀ r ∈ f.records, noNulRecord r) :
    ∃ buf df, encode_file f = .ok buf ∧ decode_file buf = .ok df ∧
      df.version = f.version ∧ df.records.length = f.records.length ∧
      ∃ sorted : List Record, sorted.Perm f.records ∧
        List.Pairwise (fun a b => numericFlarmId a ≤ numericFlarmId b) sorted ∧
        df.records = sorted.map (fun r => .ok (truncRecord r)) := by
  have hpid : ∀ r ∈ f.records, parse_flarm_id r.flarm_id = .ok (numericFlarmId r) := by
    intro r hr
    obtain ⟨id, hle, hflarm⟩ := hid r hr
    have hp : parse_flarm_id r.flarm_id = .ok id := by
      rw [hflarm]
      exact parse_flarm_id_toHex6 id hle
    rw [hp, parse_ok_numeric r id hp]
  have hpfr : ∀ r ∈ f.records, parse_frequency r.frequency = .ok (numericFrequency r) := by
    intro r hr
    rcases hfr r hr with hemp | ⟨n, hn0, hnlt, hfmt⟩
    · simp [numericFrequency, hemp, parse_frequency_empty]
    · have hp : parse_frequency r.frequency = .ok n := by
        rw [hfmt]
        exact parse_frequency_format n hn0 hnlt
      rw [hp]
      simp [numericFrequency, hp]
  have hc : collectEntries f.records =
      .ok (f.records.map fun r => (numericFlarmId r, r)) :=
    collectEntries_ok_of f.records numericFlarmId hpid
  have hmem : ∀ e ∈ sortByKey (f.records.map fun r => (numericFlarmId r, r)),
      e.2 ∈ f.records ∧ e.1 = numericFlarmId e.2 := by
    intro e he
    have hin : e ∈ f.records.map fun r => (numericFlarmId r, r) :=
      (sortByKey_perm _).mem_iff.mp he
    simp only [List.mem_map] at hin
    obtain ⟨r, hr, heq⟩ := hin
    rw [← heq]
    exact ⟨hr, rfl⟩
  have hwr : ∀ e ∈ sortByKey (f.records.map fun r => (numericFlarmId r, r)),
      write_record e.1 e.2 = .ok (recordImage e) := by
    intro e he
    exact write_record_image e (numericFrequency e.2) (hpfr e.2 (hmem e he).1)
  have hrb : recordsBytes (sortByKey (f.records.map fun r => (numericFlarmId r, r))) =
      .ok (((sortByKey (f.records.map fun r => (numericFlarmId r, r))).map
        recordImage).flatten) :=
    recordsBytes_ok_of _ recordImage hwr
  have hlenS : (sortByKey (f.records.map fun r => (numericFlarmId r, r))).length =
      f.records.length := by
    rw [(sortByKey_perm _).length_eq, List.length_map]
  have henc : encode_file f = .ok (MAGIC ++ toLe4 f.version ++
      toLe4 (sortByKey (f.records.map fun r => (numericFlarmId r, r))).length ++
      indexBytes (sortByKey (f.records.map fun r => (numericFlarmId r, r))) ++
      List.replicate PADDING_SIZE 0 ++
      ((sortByKey (f.records.map fun r => (numericFlarmId r, r))).map recordImage).flatten) := by
    unfold encode_file
    rw [hc]
    simp only [Except.bind]
    rw [hrb]
    rfl
  have h96 : ∀ b ∈ (sortByKey (f.records.map fun r => (numericFlarmId r, r))).map recordImage,
      b.length = 96 := by
    intro b hb
    simp only [List.mem_map] at hb
    obtain ⟨e, he, heq⟩ := hb
    rw [← heq]
    exact write_record_length e.1 e.2 _ (hwr e he)
  have hdec := decode_file_of_parts f.version hv
    (sortByKey (f.records.map fun r => (numericFlarmId r, r))) (by rw [hlenS]; exact hn)
    ((sortByKey (f.records.map fun r => (numericFlarmId r, r))).map recordImage)
    (by rw [List.length_map]) h96
  have hpoint : ∀ e ∈ sortByKey (f.records.map fun r => (numericFlarmId r, r)),
      decode_record (recordImage e) = .ok (truncRecord e.2) := by
    intro e he
    obtain ⟨hrec, hkey⟩ := hmem e he
    obtain ⟨id, hle, hflarm⟩ := hid e.2 hrec
    have hidnum : numericFlarmId e.2 = id :=
      parse_ok_numeric e.2 id (by rw [hflarm]; exact parse_flarm_id_toHex6 id hle)
    have hkeyle : e.1 ≤ 16777215 := by rw [hkey, hidnum]; exact hle
    have hfreqlt : numericFrequency e.2 < 4294967296 :=
      parse_frequency_lt _ _ (hpfr e.2 hrec)
    rw [decode_recordImage e hkeyle hfreqlt (hnul e.2 hrec)]
    have hflarmback : toHex6 e.1 = e.2.flarm_id := by rw [hkey, hidnum, hflarm]
    have hfreqback : formatFrequency (numericFrequency e.2) = e.2.frequency := by
      rcases hfr e.2 hrec with hemp | ⟨n, hn0, hnlt, hfmt⟩
      · have : numericFrequency e.2 = 0 := by
          simp [numericFrequency, hemp, parse_frequency_empty]
        rw [this, formatFrequency_zero, hemp]
      · have : numericFrequency e.2 = n := by
          have hp : parse_frequency e.2.frequency = .ok n := by
            rw [hfmt]
            exact parse_frequency_format n hn0 hnlt
          simp [numericFrequency, hp]
        rw [this, hfmt]
    have hrec_eq : decodedRecord e = truncRecord e.2 := by
      unfold decodedRecord truncRecord
      rw [hflarmback, hfreqback]
    rw [hrec_eq]
  have hmapped : ((sortByKey (f.records.map fun r => (numericFlarmId r, r))).map
      recordImage).map decode_record =
      (sortByKey (f.records.map fun r => (numericFlarmId r, r))).map
        (fun e => Except.ok (truncRecord e.2)) := by
    rw [List.map_map]
    exact List.map_congr_left (fun e he => hpoint e he)
  rw [hmapped] at hdec
  refine ⟨_, ⟨f.version, (sortByKey (f.records.map fun r => (numericFlarmId r, r))).map
    (fun e => Except.ok (truncRecord e.2))⟩, henc, ?_, rfl, ?_, ?_⟩
  · have hassoc : MAGIC ++ toLe4 f.version ++
        toLe4 (sortByKey (f.records.map fun r => (numericFlarmId r, r))).length ++
        indexBytes (sortByKey (f.records.map fun r => (numericFlarmId r, r))) ++
        List.replicate PADDING_SIZE 0 ++
        ((sortByKey (f.records.map fun r => (numericFlarmId r, r))).map recordImage).flatten =
        MAGIC ++ (toLe4 f.version ++
          (toLe4 (sortByKey (f.records.map fun r => (numericFlarmId r, r))).length ++
          (indexBytes (sortByKey (f.records.map fun r => (numericFlarmId r, r))) ++
          (List.replicate PADDING_SIZE 0 ++
            ((sortByKey (f.records.map fun r => (numericFlarmId r, r))).map
              recordImage).flatten)))) := by
      simp [List.append_assoc]
    rw [hassoc]
    exact hdec
  · simp only [List.length_map]
    exact hlenS
  · refine ⟨(sortByKey (f.records.map fun r => (numericFlarmId r, r))).map Prod.snd,
      ?_, ?_, ?_⟩
    · have hperm := (sortByKey_perm (f.records.map fun r => (numericFlarmId r, r))).map Prod.snd
      have : (f.records.map fun r => (numericFlarmId r, r)).map Prod.snd = f.records := by
        rw [List.map_map]
        rw [show (Prod.snd ∘ fun r => (numericFlarmId r, r)) = id from rfl]
        exact List.map_id f.records
      rw [this] at hperm
      exact hperm
    · rw [List.pairwise_map]
      refine (sortByKey_pairwise _).imp_of_mem ?_
      intro a b ha hb hab
      rw [← (hmem a ha).2, ← (hmem b hb).2]
      exact hab
    · rw [List.map_map]
      rfl

theorem forall2_mem_left {α β : Type} {R : α → β → Prop} {l1 : List α} {l2 : List β}
    (h : List.Forall₂ R l1 l2) : ∀ a ∈ l1, ∃ b ∈ l2, R a b := by
  induction h with
  | nil => intro a ha; simp at ha
  | cons hr _ ih =>
    intro a ha
    rcases List.mem_cons.mp ha with rfl | ha2
    · exact ⟨_, List.mem_cons_self _ _, hr⟩
    · obtain ⟨b, hb, hbr⟩ := ih a ha2
      exact ⟨b, List.mem_cons_of_mem _ hb, hbr⟩

theorem write_record_inv (id : Nat) (r : Record) (img : List Nat)
    (h : write_record id r = .ok img) :
    parse_frequency r.frequency = .ok (numericFrequency r) := by
  unfold write_record at h
  cases hp : parse_frequency r.frequency with
  | error e => rw [hp] at h; exact absurd h (by simp [Except.map])
  | ok v =>
    simp [numericFrequency, hp]

theorem write_string_takeUtf8 (v : List Char) :
    write_string (takeUtf8 15 v) = write_string v := by
  rw [write_string_eq (takeUtf8 15 v), write_string_eq v]
  rw [takeUtf8_eq_self (takeUtf8 15 v) 15 (takeUtf8_le v 15)]

theorem numericFrequency_decoded (e : Nat × Record)
    (hq : numericFrequency e.2 < 4294967296) :
    parse_frequency (decodedRecord e).frequency = .ok (numericFrequency e.2) := by
  show parse_frequency (formatFrequency (numericFrequency e.2)) = _
  by_cases h0 : numericFrequency e.2 = 0
  · rw [h0, formatFrequency_zero, parse_frequency_empty]
  · exact parse_frequency_format _ h0 hq

theorem recordImage_decoded (e : Nat × Record)
    (hq : numericFrequency e.2 < 4294967296) :
    recordImage (e.1, decodedRecord e) = recordImage e := by
  unfold recordImage
  have hfr : numericFrequency (e.1, decodedRecord e).2 = numericFrequency e.2 := by
    have := numericFrequency_decoded e hq
    simp [numericFrequency, this]
  rw [hfr]
  have ht : ∀ s : String, (truncStr s).data = takeUtf8 15 s.data := fun s => rfl
  show toLe4 e.1 ++ (toLe4 (numericFrequency e.2) ++ (List.replicate 8 0 ++
    (write_string (truncStr e.2.call_sign).data ++ (write_string (truncStr e.2.pilot_name).data ++
    (write_string (truncStr e.2.airfield).data ++ (write_string (truncStr e.2.plane_type).data ++
      write_string (truncStr e.2.registration).data)))))) = _
  rw [ht, ht, ht, ht, ht, write_string_takeUtf8, write_string_takeUtf8, write_string_takeUtf8,
    write_string_takeUtf8, write_string_takeUtf8]

theorem indexBytes_eq_map (l : List (Nat × Record)) :
    indexBytes l = ((l.map Prod.fst).map toLe4).flatten := by
  induction l with
  | nil => rfl
  | cons e rest ih =>
    cases e with
    | mk id r =>
      show toLe4 id ++ indexBytes rest = _
      rw [ih]
      rfl

theorem indexBytes_congr (l1 l2 : List (Nat × Record))
    (h : l1.map Prod.fst = l2.map Prod.fst) : indexBytes l1 = indexBytes l2 := by
  rw [indexBytes_eq_map, indexBytes_eq_map, h]

/-- C2 (amended): for every File whose text fields are NUL-free, when the
encode succeeds and decoding its output succeeds with every per-record
outcome a success, re-encoding the decoded file (same version, the decoded
records as input) reproduces the original byte buffer exactly.  The
original claim, with no NUL restriction, is refuted by
`reencode_counterexample`: an interior NUL byte is written by the encoder
but cut off by the decoder's terminator scan. -/
theorem reencode_after_decode (f : File) (buf : List Nat) (df : DecodedFile)
    (recs : List Record) (hn : f.records.length < 4294967296)
    (hnul : ∀ r ∈ f.records, noNulRecord r)
    (h1 : encode_file f = .ok buf) (h2 : decode_file buf = .ok df)
    (h3 : df.records = recs.map Except.ok) :
    encode_file ⟨df.version, recs⟩ = .ok buf := by
  obtain ⟨entries, recs0, hc, hr, hbuf⟩ := encode_file_inv f buf h1
  obtain ⟨hlenE, hfE⟩ := collectEntries_inv _ _ hc
  have hmemE : ∀ e ∈ sortByKey entries, e.2 ∈ f.records ∧
      parse_flarm_id e.2.flarm_id = .ok e.1 := by
    intro e he
    have hin : e ∈ entries := (sortByKey_perm entries).mem_iff.mp he
    obtain ⟨r, hrmem, hrel⟩ := forall2_mem_right hfE e hin
    refine ⟨?_, ?_⟩
    · rw [hrel.1]
      exact hrmem
    · rw [hrel.1]
      exact hrel.2
  obtain ⟨imgs, hflat, hfI⟩ := recordsBytes_inv _ _ hr
  have hpfr : ∀ e ∈ sortByKey entries,
      parse_frequency e.2.frequency = .ok (numericFrequency e.2) := by
    intro e he
    obtain ⟨img, _, hw⟩ := forall2_mem_left hfI e he
    exact write_record_inv e.1 e.2 img hw
  have himg : ∀ e ∈ sortByKey entries, write_record e.1 e.2 = .ok (recordImage e) := by
    intro e he
    exact write_record_image e _ (hpfr e he)
  have hrb2 : recordsBytes (sortByKey entries) =
      .ok (((sortByKey entries).map recordImage).flatten) :=
    recordsBytes_ok_of _ recordImage himg
  have hrecs0 : recs0 = ((sortByKey entries).map recordImage).flatten := by
    rw [hr] at hrb2
    simpa using hrb2
  have hkeyle : ∀ e ∈ sortByKey entries, e.1 ≤ 16777215 :=
    fun e he => parse_flarm_id_le _ _ (hmemE e he).2
  have hfrlt : ∀ e ∈ sortByKey entries, numericFrequency e.2 < 4294967296 :=
    fun e he => parse_frequency_lt _ _ (hpfr e he)
  have h96 : ∀ b ∈ (sortByKey entries).map recordImage, b.length = 96 := by
    intro b hb
    simp only [List.mem_map] at hb
    obtain ⟨e, he, heq⟩ := hb
    rw [← heq]
    exact write_record_length e.1 e.2 _ (himg e he)
  have hslen : (sortByKey entries).length = f.records.length := by
    rw [(sortByKey_perm entries).length_eq, hlenE]
  have hdec := decode_file_of_parts (f.version % 4294967296)
    (Nat.mod_lt _ (by norm_num)) (sortByKey entries) (by rw [hslen]; exact hn)
    ((sortByKey entries).map recordImage) (by rw [List.length_map]) h96
  have hbufassoc : buf = MAGIC ++ (toLe4 (f.version % 4294967296) ++
      (toLe4 (sortByKey entries).length ++ (indexBytes (sortByKey entries) ++
      (List.replicate PADDING_SIZE 0 ++ ((sortByKey entries).map recordImage).flatten)))) := by
    rw [hbuf, hrecs0, toLe4_mod]
    simp [List.append_assoc]
  have hpoint : ∀ e ∈ sortByKey entries,
      decode_record (recordImage e) = .ok (decodedRecord e) := by
    intro e he
    exact decode_recordImage e (hkeyle e he) (hfrlt e he) (hnul e.2 (hmemE e he).1)
  have hdf : df = ⟨f.version % 4294967296,
      (sortByKey entries).map (fun e => Except.ok (decodedRecord e))⟩ := by
    rw [hbufassoc] at h2
    rw [hdec] at h2
    have hmapped : ((sortByKey entries).map recordImage).map decode_record =
        (sortByKey entries).map (fun e => Except.ok (decodedRecord e)) := by
      rw [List.map_map]
      exact List.map_congr_left (fun e he => hpoint e he)
    rw [hmapped] at h2
    simpa using h2.symm
  have hrecs : recs = (sortByKey entries).map decodedRecord := by
    have hokmap0 : recs.map (Except.ok : Record → Except DecodeError Record) =
        (sortByKey entries).map (fun e => Except.ok (decodedRecord e)) := by
      rw [← h3, hdf]
    have hokmap : recs.map Except.ok =
        ((sortByKey entries).map decodedRecord).map
          (Except.ok : Record → Except DecodeError Record) := by
      rw [hokmap0, List.map_map]
      rfl
    have hinj : Function.Injective (List.map (Except.ok : Record → Except DecodeError Record)) :=
      List.map_injective_iff.mpr (fun a b hab => by
        simpa using hab)
    exact hinj hokmap
  have hdfv : df.version = f.version % 4294967296 := by rw [hdf]
  -- re-encode
  have hpid2 : ∀ r ∈ recs, parse_flarm_id r.flarm_id = .ok (numericFlarmId r) := by
    intro r hr2
    rw [hrecs] at hr2
    simp only [List.mem_map] at hr2
    obtain ⟨e, he, heq⟩ := hr2
    have hp : parse_flarm_id r.flarm_id = .ok e.1 := by
      rw [← heq]
      exact parse_flarm_id_toHex6 e.1 (hkeyle e he)
    rw [hp, parse_ok_numeric r e.1 hp]
  have hc2 : collectEntries recs = .ok (recs.map fun r => (numericFlarmId r, r)) :=
    collectEntries_ok_of recs numericFlarmId hpid2
  have hentries2 : recs.map (fun r => (numericFlarmId r, r)) =
      (sortByKey entries).map (fun e => (e.1, decodedRecord e)) := by
    rw [hrecs, List.map_map]
    apply List.map_congr_left
    intro e he
    have hp : parse_flarm_id (decodedRecord e).flarm_id = .ok e.1 :=
      parse_flarm_id_toHex6 e.1 (hkeyle e he)
    show (numericFlarmId (decodedRecord e), decodedRecord e) = (e.1, decodedRecord e)
    rw [parse_ok_numeric _ e.1 hp]
  have hkeys2 : ((sortByKey entries).map (fun e => (e.1, decodedRecord e))).map Prod.fst =
      (sortByKey entries).map Prod.fst := by
    rw [List.map_map]
    rfl
  have hsorted2 : sortByKey ((sortByKey entries).map (fun e => (e.1, decodedRecord e))) =
      (sortByKey entries).map (fun e => (e.1, decodedRecord e)) := by
    apply sortByKey_sorted_fix
    rw [List.pairwise_map]
    exact (sortByKey_pairwise entries).imp_of_mem (fun ha hb hab => hab)
  have himg2 : ∀ e2 ∈ (sortByKey entries).map (fun e => (e.1, decodedRecord e)),
      write_record e2.1 e2.2 = .ok (recordImage e2) := by
    intro e2 he2
    simp only [List.mem_map] at he2
    obtain ⟨e, he, heq⟩ := he2
    rw [← heq]
    exact write_record_image (e.1, decodedRecord e) (numericFrequency e.2)
      (numericFrequency_decoded e (hfrlt e he))
  have hrb3 : recordsBytes ((sortByKey entries).map (fun e => (e.1, decodedRecord e))) =
      .ok ((((sortByKey entries).map (fun e => (e.1, decodedRecord e))).map
        recordImage).flatten) :=
    recordsBytes_ok_of _ recordImage himg2
  have himgs2 : ((sortByKey entries).map (fun e => (e.1, decodedRecord e))).map recordImage =
      (sortByKey entries).map recordImage := by
    rw [List.map_map]
    apply List.map_congr_left
    intro e he
    show recordImage (e.1, decodedRecord e) = recordImage e
    exact recordImage_decoded e (hfrlt e he)
  unfold encode_file
  rw [hc2]
  simp only [Except.bind]
  rw [hentries2, hsorted2, hrb3, himgs2]
  simp only [Except.map, Except.ok.injEq]
  rw [hbuf, hrecs0]
  rw [indexBytes_congr _ _ hkeys2]
  have hlen2 : ((sortByKey entries).map (fun e => (e.1, decodedRecord e))).length =
      (sortByKey entries).length := by
    rw [List.length_map]
  rw [hlen2]
  show MAGIC ++ toLe4 df.version ++ _ ++ _ ++ _ ++ _ = _
  rw [hdfv, toLe4_mod]

/-- C1 counterexample: "abc" is a valid hex id string (value 0xABC, at most
0xFFFFFF) and the frequency is empty, so the original claim's hypotheses
hold; encode then decode succeeds, but the decoded record carries the
canonical id "000ABC", not "abc" — and flarm_id is not a text field, so the
claimed equality up to text truncation fails. -/
theorem round_trip_counterexample :
    (∃ id, fromStrRadix16 ("abc" : String).data = some id ∧ id ≤ 16777215) ∧
    ∃ buf df, encode_file ⟨1, [⟨"abc", "", "", "", "", "", ""⟩]⟩ = .ok buf ∧
      decode_file buf = .ok df ∧ df.version = 1 ∧
      df.records = [.ok ⟨"000ABC", "", "", "", "", "", ""⟩] ∧
      (⟨"000ABC", "", "", "", "", "", ""⟩ : Record) ≠ ⟨"abc", "", "", "", "", "", ""⟩ := by
  refine ⟨⟨2748, by rfl, by norm_num⟩, _, _, by rfl, by rfl, by rfl, by rfl, by decide⟩

/-- C1 witness: the spec's example record, in canonical form, survives the
round trip with every field intact. -/
theorem round_trip_witness :
    ∃ buf df, encode_file ⟨1, [⟨"3EE3C7", "John Doe", "EDKA", "LS6a", "D-0816", "SG",
        "123.500"⟩]⟩ = .ok buf ∧ decode_file buf = .ok df ∧
      df.version = 1 ∧ df.records.length = 1 ∧
      ∃ sorted : List Record, sorted.Perm [⟨"3EE3C7", "John Doe", "EDKA", "LS6a", "D-0816",
          "SG", "123.500"⟩] ∧
        List.Pairwise (fun a b => numericFlarmId a ≤ numericFlarmId b) sorted ∧
        df.records = sorted.map (fun r => .ok (truncRecord r)) := by
  exact round_trip ⟨1, [⟨"3EE3C7", "John Doe", "EDKA", "LS6a", "D-0816", "SG", "123.500"⟩]⟩
    (by norm_num) (by norm_num)
    (by
      intro r hr
      rw [List.mem_singleton] at hr
      subst hr
      exact ⟨4121543, by norm_num, by rfl⟩)
    (by
      intro r hr
      rw [List.mem_singleton] at hr
      subst hr
      exact Or.inr ⟨123500, by norm_num, by norm_num, by rfl⟩)
    (by
      intro r hr
      rw [List.mem_singleton] at hr
      subst hr
      refine ⟨?_, ?_, ?_, ?_, ?_⟩ <;> decide)

/-- C2 counterexample: a call sign holding an interior NUL byte encodes as
written, decodes truncated at the NUL, and re-encoding the decoded file
produces a different buffer, refuting byte-for-byte idempotence as
originally claimed. -/
theorem reencode_counterexample :
    ∃ buf df buf2,
      encode_file ⟨1, [⟨"000001", "", "", "", "", "a\x00b", ""⟩]⟩ = .ok buf ∧
      decode_file buf = .ok df ∧
      df.records = [.ok ⟨"000001", "", "", "", "", "a", ""⟩] ∧
      encode_file ⟨df.version, [⟨"000001", "", "", "", "", "a", ""⟩]⟩ = .ok buf2 ∧
      buf2 ≠ buf := by
  refine ⟨_, _, _, by rfl, by rfl, by rfl, by rfl, by decide⟩

/-- C2 witness: re-encoding the decode of the spec's example file
reproduces the original bytes. -/
theorem reencode_witness :
    ∃ buf df, encode_file ⟨1, [⟨"3EE3C7", "John Doe", "EDKA", "LS6a", "D-0816", "SG",
        "123.500"⟩]⟩ = .ok buf ∧ decode_file buf = .ok df ∧
      df.records = [(⟨"3EE3C7", "John Doe", "EDKA", "LS6a", "D-0816", "SG",
        "123.500"⟩ : Record)].map Except.ok ∧
      encode_file ⟨df.version, [⟨"3EE3C7", "John Doe", "EDKA", "LS6a", "D-0816", "SG",
        "123.500"⟩]⟩ = .ok buf := by
  refine ⟨_, _, by rfl, by rfl, by rfl, ?_⟩
  exact reencode_after_decode
    ⟨1, [⟨"3EE3C7", "John Doe", "EDKA", "LS6a", "D-0816", "SG", "123.500"⟩]⟩ _ _
    [⟨"3EE3C7", "John Doe", "EDKA", "LS6a", "D-0816", "SG", "123.500"⟩]
    (by norm_num)
    (by
      intro r hr
      rw [List.mem_singleton] at hr
      subst hr
      refine ⟨?_, ?_, ?_, ?_, ?_⟩ <;> decide)
    (by rfl) (by rfl) (by rfl)

/-- C3 witness: encoding the empty database at version 7 gives exactly the
20 header-plus-padding bytes with the version bytes preserved. -/
theorem encode_layout_witness :
    ∃ buf, encode_file ⟨7, ([] : List Record)⟩ = .ok buf ∧ buf.length = 20 ∧
      buf = MAGIC ++ toLe4 7 ++ toLe4 0 ++ List.replicate 8 0 := by
  obtain ⟨entries, sorted, imgs, hc1, hc2, hc3, hc4, hc5, hc6, hc7, hc8, hc9, hc10⟩ :=
    encode_layout ⟨7, []⟩ (MAGIC ++ toLe4 7 ++ toLe4 0 ++ List.replicate 8 0) (by rfl)
  obtain ⟨hl, hb⟩ := hc10 rfl
  exact ⟨_, by rfl, hl, hb⟩

/-- C4 witness: the four validation outcomes on concrete buffers. -/
theorem decode_validation_witness :
    decode_file [] = .error .unexpectedEof ∧
    decode_file [0, 0, 0, 0, 0, 0, 0, 0, 0, 0, 0, 0] = .error (.invalidMagic [0, 0, 0, 0]) ∧
    decode_file [0x08, 0xd5, 0x19, 0x87, 1, 0, 0, 0, 1, 0, 0, 0] = .error .unexpectedEof ∧
    ∃ df, decode_file [0x08, 0xd5, 0x19, 0x87, 1, 0, 0, 0, 0, 0, 0, 0,
      0, 0, 0, 0, 0, 0, 0, 0] = .ok df := by
  refine ⟨(decode_validation_order []).1 (by decide), ?_, ?_, ?_⟩
  · exact (decode_validation_order _).2.1 (by decide) (by decide)
  · exact (decode_validation_order _).2.2.1 (by decide) (by decide) (by decide)
  · exact ⟨_, (decode_validation_order _).2.2.2 (by decide) (by decide) (by decide)⟩

/-- C5 witness: a one-record buffer decodes to a singleton outcome list
whose slot 0 is the decode of its 96-byte slot. -/
theorem decode_isolation_witness :
    ∃ df, decode_file (MAGIC ++ toLe4 1 ++ toLe4 1 ++ toLe4 1 ++ List.replicate 8 0 ++
        List.replicate 96 0) = .ok df ∧
      df.records.length = readLe4 (MAGIC ++ toLe4 1 ++ toLe4 1 ++ toLe4 1 ++
        List.replicate 8 0 ++ List.replicate 96 0) 8 ∧
      df.records.getD 0 (.error .unexpectedEof) = decode_record
        (((MAGIC ++ toLe4 1 ++ toLe4 1 ++ toLe4 1 ++ List.replicate 8 0 ++
          List.replicate 96 0).drop (HEADER_SIZE + readLe4 (MAGIC ++ toLe4 1 ++ toLe4 1 ++
            toLe4 1 ++ List.replicate 8 0 ++ List.replicate 96 0) 8 * INDEX_ENTRY_SIZE +
            PADDING_SIZE + 0 * RECORD_SIZE)).take RECORD_SIZE) := by
  refine ⟨_, by rfl, ?_, ?_⟩
  · exact (decode_per_record_isolation _ _ (by rfl)).1
  · exact (decode_per_record_isolation _ _ (by rfl)).2 0 (by decide)

/-- C6 witness: a stored id one above the bound fails that slot's decode,
and the string "1000000" fails the whole encode naming the string. -/
theorem flarm_id_bounds_witness :
    decode_record (toLe4 16777216 ++ (toLe4 0 ++ (List.replicate 8 0 ++ (write_string [] ++
      (write_string [] ++ (write_string [] ++ (write_string [] ++ write_string []))))))) =
      .error (.invalidFlarmId 16777216) ∧
    ∃ r ∈ ([⟨"1000000", "", "", "", "", "", ""⟩] : List Record),
      parse_flarm_id r.flarm_id = .error (.invalidFlarmId r.flarm_id) ∧
      encode_file ⟨0, [⟨"1000000", "", "", "", "", "", ""⟩]⟩ =
        .error (.invalidFlarmId r.flarm_id) := by
  constructor
  · exact flarm_id_bounds.2.1 _ (by decide)
  · exact flarm_id_bounds.2.2.2.2.2.2.1 ⟨0, [⟨"1000000", "", "", "", "", "", ""⟩]⟩
      ⟨⟨"1000000", "", "", "", "", "", ""⟩, List.mem_singleton.mpr rfl, by rfl⟩

/-- C7 witness: a rendered frequency parses back to its integer, and a
non-numeric string fails naming itself. -/
theorem frequency_mapping_witness :
    parse_frequency (formatFrequency 444999) = .ok 444999 ∧
    parse_frequency "abc" = .error (.invalidFrequency "abc") ∧
    formatFrequency 444999 = natToString 444 ++ "." ++ pad3 999 := by
  refine ⟨frequency_mapping.2.2.2.2.2.1 444999 (by norm_num) (by norm_num),
    frequency_mapping.2.2.2.2.2.2.1 "abc" (by decide) (by rfl), ?_⟩
  exact (frequency_mapping.2.1 444999 (by norm_num) (by norm_num)).1

/-- C9 witness: a valid field decodes to its string, an invalid field
yields the named error at its offset, also at the record level. -/
theorem decode_text_witness :
    decode_string (write_string ['S', 'G']) 0 "call_sign" = .ok "SG" ∧
    decode_string (List.replicate 16 255) 0 "call_sign" =
      .error (.invalidUtf8 "call_sign" 0) ∧
    decode_record (toLe4 1 ++ (toLe4 0 ++ (List.replicate 8 0 ++ (List.replicate 16 255 ++
      (write_string [] ++ (write_string [] ++ (write_string [] ++ write_string []))))))) =
      .error (.invalidUtf8 "call_sign" 16) := by
  refine ⟨decode_text_field_semantics.1 _ 0 "call_sign" ['S', 'G'] (by rfl),
    decode_text_field_semantics.2.1 _ 0 "call_sign" (by rfl),
    decode_text_field_semantics.2.2.2.2 _ (.invalidUtf8 "call_sign" 16) (by decide) (by rfl)⟩

/-- C10 witness: trailing bytes after a well-formed empty database are
ignored. -/
theorem decode_trailing_witness :
    ∃ df, decode_file (MAGIC ++ toLe4 1 ++ toLe4 0 ++ List.replicate 8 0) = .ok df ∧
      decode_file ((MAGIC ++ toLe4 1 ++ toLe4 0 ++ List.replicate 8 0) ++ [1, 2, 3]) =
        .ok df := by
  refine ⟨_, by rfl, ?_⟩
  exact decode_ignores_trailing _ [1, 2, 3] _ (by rfl)

end Tdb
